import Mathlib

/-!
# Verification of the llm-compressor layer-compression orchestrator

Shallow embedding of
* `src/llmcompressor/modifiers/quantization/gptq/utils/helpers.py`
  (`get_output_error`), and
* `src/llmcompressor/modifiers/utils/layer_compressor.py`
  (`LayerCompressor`),
together with proofs about the spec's claims.

Conventions of the embedding:
* Python floats are idealised as exact rationals `ℚ`; the floating-point
  value NaN (produced by `torch` when taking the mean of an empty tensor)
  is modelled as `Option.none`, and all arithmetic propagates it.
* A raised Python exception is modelled as `Except.error` (for
  `get_output_error`) resp. `Option.none` (for the stateful
  `LayerCompressor` operations, where the exception kind is irrelevant
  to the claims).
* A dotted module path `"a.b.c"` is represented by its segment list
  `["a", "b", "c"]`; the empty string is the empty list.  This is a
  bijective renaming of the Python values (attribute names contain no
  dots), chosen so that the proofs do not need string-splitting lemmas.
-/

namespace LlmCompressor

/-! ## Part 1: `get_output_error` (helpers.py)

The embedding follows the source line by line:

```python
unquantized_outputs = sum(
    [[output for output in outputs] if isinstance(outputs, Iterable)
     else [outputs] for outputs, _ in unquantized], start=[])
...
if len(unquantized_outputs) != len(quantized_outputs): raise ValueError(...)
num_unq = sum([1 for _ in unquantized_outputs if isinstance(_, torch.Tensor)])
num_q = sum([1 for _ in quantized_outputs if isinstance(_, torch.Tensor)])
assert num_q == num_unq, ...
return sum([torch.nn.functional.l1_loss(unq, q)
            for unq, q in zip(unquantized_outputs, quantized_outputs)
            if isinstance(unq, torch.Tensor)]) / num_q
```

Notes on faithfulness:
* `torch.Tensor` implements `__iter__`, so `isinstance(tensor, Iterable)`
  is `True` and a tensor entry is flattened into its rows (sub-tensors
  along dimension 0); iterating a 0-dimensional tensor raises `TypeError`.
* `l1_loss` with the default `reduction="mean"` returns the mean of the
  element-wise absolute differences; on 0-element tensors it returns NaN.
* `l1_loss` applied to a non-tensor second argument raises; tensors of
  different shapes are modelled as a raise as well (the shapes coincide in
  every run the claims are about).
* When `num_q == 0` the list comprehension is empty (its guard is
  `isinstance(unq, torch.Tensor)` and `num_unq == num_q`), so the final
  expression is the plain integer division `0 / 0`: `ZeroDivisionError`.
-/

/-- A torch tensor: either 0-dimensional (a scalar) or a list of rows. -/
inductive Tensor where
  | dim0 (v : ℚ)
  | dimN (rows : List Tensor)

/-- A Python value appearing in the output lists of `get_output_error`:
a tensor, a non-tensor iterable (list/tuple), or any other object. -/
inductive Val where
  | tens (t : Tensor)
  | pylist (xs : List Val)
  | obj

/-- The Python exceptions `get_output_error` can raise. -/
inductive PyErr where
  | typeError
  | valueError
  | assertionError
  | zeroDivisionError
  | runtimeError
deriving DecidableEq, Repr

/-- `isinstance(v, torch.Tensor)`. -/
def Val.isTensor : Val → Bool
  | .tens _ => true
  | _ => false

mutual
/-- All scalar entries of a tensor, in row-major order. -/
def Tensor.elems : Tensor → List ℚ
  | .dim0 v => [v]
  | .dimN rows => Tensor.elemsList rows

/-- `Tensor.elems` mapped over a list of rows. -/
def Tensor.elemsList : List Tensor → List ℚ
  | [] => []
  | t :: ts => t.elems ++ Tensor.elemsList ts
end

mutual
/-- Equality of tensor shapes. -/
def Tensor.sameShape : Tensor → Tensor → Bool
  | .dim0 _, .dim0 _ => true
  | .dimN r1, .dimN r2 => Tensor.sameShapeList r1 r2
  | _, _ => false

/-- `Tensor.sameShape` zipped over two row lists. -/
def Tensor.sameShapeList : List Tensor → List Tensor → Bool
  | [], [] => true
  | t :: ts, u :: us => t.sameShape u && Tensor.sameShapeList ts us
  | _, _ => false
end

/-- `[output for output in outputs] if isinstance(outputs, Iterable) else
[outputs]` for one entry.  A tensor is iterable (yielding its rows), but
iterating a 0-dimensional tensor raises `TypeError`. -/
def flattenOne : Val → Except PyErr (List Val)
  | .tens (.dim0 _) => .error .typeError
  | .tens (.dimN rows) => .ok (rows.map Val.tens)
  | .pylist xs => .ok xs
  | .obj => .ok [.obj]

/-- `sum([... for outputs, _ in l], start=[])`: flatten the first
components of the paired sequence. -/
def flattenAll : List (Val × Val) → Except PyErr (List Val)
  | [] => .ok []
  | e :: rest => do
      let xs ← flattenOne e.1
      let ys ← flattenAll rest
      pure (xs ++ ys)

/-- Number of tensor entries of a flattened list (`num_unq` / `num_q`). -/
def countTensors (l : List Val) : ℕ := (l.filter Val.isTensor).length

/-- Mean of the element-wise absolute differences of two same-shape
tensors; NaN (`none`) on 0-element tensors, as torch's mean reduction. -/
def meanAbsDiff (a b : Tensor) : Option ℚ :=
  if a.elems.length = 0 then none
  else some ((List.zipWith (fun x y => |x - y|) a.elems b.elems).sum / a.elems.length)

/-- `torch.nn.functional.l1_loss(unq, q)` (mean reduction).  Raises when
`q` is not a tensor or the shapes disagree. -/
def l1_loss (unq q : Val) : Except PyErr (Option ℚ) :=
  match unq, q with
  | .tens a, .tens b => if a.sameShape b then .ok (meanAbsDiff a b) else .error .runtimeError
  | _, _ => .error .typeError

/-- The final list comprehension: an `l1_loss` term for every zipped pair
whose first component is a tensor. -/
def collectTerms : List (Val × Val) → Except PyErr (List (Option ℚ))
  | [] => .ok []
  | (a, b) :: rest =>
      if a.isTensor then do
        let x ← l1_loss a b
        let xs ← collectTerms rest
        pure (x :: xs)
      else collectTerms rest

/-- NaN-propagating addition. -/
def nanAdd (a b : Option ℚ) : Option ℚ := do pure ((← a) + (← b))

/-- NaN-propagating sum of the loss terms (`sum` starting at integer 0). -/
def nanSum (l : List (Option ℚ)) : Option ℚ := l.foldl nanAdd (some 0)

/-- `get_output_error` from helpers.py.  The returned scalar is an
`Option ℚ`, with `none` standing for the floating-point NaN.
(`num_unq` and `num_q` are inlined as `countTensors u` / `countTensors q`.) -/
def get_output_error (unquantized quantized : List (Val × Val)) :
    Except PyErr (Option ℚ) := do
  let u ← flattenAll unquantized
  let q ← flattenAll quantized
  if u.length ≠ q.length then throw .valueError
  else if countTensors u ≠ countTensors q then throw .assertionError
  else do
    let terms ← collectTerms (u.zip q)
    if countTensors q = 0 then throw .zeroDivisionError
    else pure ((nanSum terms).map (· / (countTensors q : ℚ)))

/-! ### Auxiliary lemmas about `Except` -/

theorem ok_bind {ε α β : Type} (a : α) (f : α → Except ε β) :
    (Except.ok a : Except ε α) >>= f = f a := rfl

theorem error_bind {ε α β : Type} (e : ε) (f : α → Except ε β) :
    (Except.error e : Except ε α) >>= f = .error e := rfl

theorem throw_ne_ok {ε α : Type} (e : ε) (a : α) :
    (throw e : Except ε α) ≠ .ok a := fun h => Except.noConfusion h

theorem bind_eq_ok {ε α β : Type} {m : Except ε α} {f : α → Except ε β} {b : β}
    (h : m >>= f = .ok b) : ∃ a, m = .ok a ∧ f a = .ok b := by
  cases m with
  | error e => exact absurd h (by rw [error_bind]; exact fun h => Except.noConfusion h)
  | ok a => exact ⟨a, rfl, h⟩

/-! ### Lemmas about the loss computation -/

/-- The loss term the code computes for a pair (total helper; only applied
to pairs of tensors). -/
def pairLoss : Val × Val → Option ℚ
  | (.tens a, .tens b) => meanAbsDiff a b
  | _ => none

theorem l1_loss_ok {a b : Val} {x : Option ℚ} (h : l1_loss a b = .ok x) :
    a.isTensor = true ∧ b.isTensor = true ∧ x = pairLoss (a, b) := by
  cases a <;> cases b <;>
    simp only [l1_loss] at h <;> first
    | exact absurd h (fun hc => Except.noConfusion hc)
    | · refine ⟨rfl, rfl, ?_⟩
        split at h
        · exact (Except.ok.inj h).symm
        · exact absurd h (fun hc => Except.noConfusion hc)

theorem l1_loss_error {a b : Val} {e : PyErr} (h : l1_loss a b = .error e) :
    e = .typeError ∨ e = .runtimeError := by
  cases a <;> cases b <;> simp only [l1_loss] at h <;> first
  | exact Or.inl (Except.error.inj h).symm
  | · split at h
      · exact absurd h (fun hc => Except.noConfusion hc)
      · exact Or.inr (Except.error.inj h).symm

theorem collectTerms_ok : ∀ {l : List (Val × Val)} {ts : List (Option ℚ)},
    collectTerms l = .ok ts →
    (∀ p ∈ l, p.1.isTensor = true → p.2.isTensor = true) ∧
      ts = (l.filter (fun p => p.1.isTensor)).map pairLoss := by
  intro l
  induction l with
  | nil =>
      intro ts h
      refine ⟨by simp, ?_⟩
      simp only [collectTerms] at h
      simp [(Except.ok.inj h).symm]
  | cons e rest ih =>
      intro ts h
      obtain ⟨a, b⟩ := e
      by_cases ha : a.isTensor = true
      · rw [collectTerms, if_pos ha] at h
        obtain ⟨x, hx, h2⟩ := bind_eq_ok h
        obtain ⟨xs, hxs, h3⟩ := bind_eq_ok h2
        obtain ⟨-, hb, hxval⟩ := l1_loss_ok hx
        obtain ⟨hrest, hts⟩ := ih hxs
        refine ⟨?_, ?_⟩
        · intro p hp hpt
          rcases List.mem_cons.mp hp with hp | hp
          · rw [hp]; exact hb
          · exact hrest p hp hpt
        · rw [← (Except.ok.inj h3), List.filter_cons, if_pos ha, List.map_cons,
            hxval, hts]
      · rw [collectTerms, if_neg ha] at h
        obtain ⟨hrest, hts⟩ := ih h
        refine ⟨?_, ?_⟩
        · intro p hp hpt
          rcases List.mem_cons.mp hp with hp | hp
          · exact absurd hpt (by rw [hp]; exact fun hc => ha hc)
          · exact hrest p hp hpt
        · rw [List.filter_cons, if_neg ha, hts]

theorem collectTerms_error : ∀ {l : List (Val × Val)} {e : PyErr},
    collectTerms l = .error e → e = .typeError ∨ e = .runtimeError := by
  intro l
  induction l with
  | nil => intro e h; exact absurd h (fun hc => Except.noConfusion hc)
  | cons p rest ih =>
      intro e h
      obtain ⟨a, b⟩ := p
      by_cases ha : a.isTensor = true
      · rw [collectTerms, if_pos ha] at h
        cases hx : l1_loss a b with
        | error e0 =>
            rw [hx, error_bind] at h
            rw [← Except.error.inj h]
            exact l1_loss_error hx
        | ok x =>
            rw [hx, ok_bind] at h
            cases hxs : collectTerms rest with
            | error e1 =>
                rw [hxs, error_bind] at h
                rw [← Except.error.inj h]
                exact ih hxs
            | ok xs =>
                rw [hxs, ok_bind] at h
                exact absurd h (fun hc => Except.noConfusion hc)
      · rw [collectTerms, if_neg ha] at h
        exact ih h

theorem collectTerms_no_tensor : ∀ {l : List (Val × Val)},
    (∀ p ∈ l, p.1.isTensor = false) → collectTerms l = .ok [] := by
  intro l
  induction l with
  | nil => intro _; rfl
  | cons p rest ih =>
      intro h
      obtain ⟨a, b⟩ := p
      rw [collectTerms, if_neg (by simp [h (a, b) (List.mem_cons_self _ _)])]
      exact ih (fun p hp => h p (List.mem_cons_of_mem _ hp))

theorem countTensors_nil : countTensors [] = 0 := rfl

theorem countTensors_eq_zip_filter_length :
    ∀ (u q : List Val), u.length = q.length →
      countTensors u = ((u.zip q).filter (fun p => p.1.isTensor)).length := by
  intro u
  induction u with
  | nil => intro q h; simp [countTensors]
  | cons a u ih =>
      intro q h
      cases q with
      | nil => simp at h
      | cons b q =>
          have hlen : u.length = q.length := by simpa using h
          cases ha : a.isTensor <;>
            simp [countTensors, List.filter_cons, ha, ← ih q hlen]

theorem zip_self {α : Type} (l : List α) : l.zip l = l.map (fun v => (v, v)) := by
  induction l with
  | nil => rfl
  | cons a l ih => simp [List.zip_cons_cons, ih]

theorem filter_fst_eq_filter_both {l : List (Val × Val)}
    (h : ∀ p ∈ l, p.1.isTensor = true → p.2.isTensor = true) :
    l.filter (fun p => p.1.isTensor) =
      l.filter (fun p => p.1.isTensor && p.2.isTensor) := by
  induction l with
  | nil => rfl
  | cons e rest ih =>
      have he := h e (List.mem_cons_self _ _)
      have ih' := ih (fun p hp hpt => h p (List.mem_cons_of_mem _ hp) hpt)
      cases h1 : e.1.isTensor with
      | false => simp [List.filter_cons, h1, ih']
      | true => simp [List.filter_cons, h1, he h1, ih']

theorem nanSum_aux_zero : ∀ (l : List (Option ℚ)) (c : ℚ),
    (∀ x ∈ l, x = some 0) → l.foldl nanAdd (some c) = some c := by
  intro l
  induction l with
  | nil => intro c _; rfl
  | cons x l ih =>
      intro c h
      have hx : x = some 0 := h x (List.mem_cons_self _ _)
      have : nanAdd (some c) x = some c := by
        rw [hx]; simp [nanAdd]
      rw [List.foldl_cons, this]
      exact ih c (fun y hy => h y (List.mem_cons_of_mem _ hy))

theorem nanSum_all_zero {l : List (Option ℚ)} (h : ∀ x ∈ l, x = some 0) :
    nanSum l = some 0 := nanSum_aux_zero l 0 h

theorem absDiff_self_sum : ∀ (l : List ℚ),
    (List.zipWith (fun x y => |x - y|) l l).sum = 0 := by
  intro l
  induction l with
  | nil => rfl
  | cons a l ih => simp [List.zipWith, ih]

theorem meanAbsDiff_self {t : Tensor} (h : t.elems ≠ []) :
    meanAbsDiff t t = some 0 := by
  rw [meanAbsDiff, if_neg (by simpa using h), absDiff_self_sum, zero_div]

theorem sameShape_refl : ∀ (t : Tensor), t.sameShape t = true := by
  have main : ∀ (t : Tensor), t.sameShape t = true := by
    intro t
    induction t using Tensor.rec
      (motive_2 := fun l => Tensor.sameShapeList l l = true) with
    | dim0 v => rfl
    | dimN rows ih => exact ih
    | nil => rfl
    | cons t ts iht ihts => simp [Tensor.sameShapeList, iht, ihts]
  exact main

/-- Eliminate a successful run of `get_output_error` into its pieces. -/
theorem get_output_error_ok_elim {U Q : List (Val × Val)} {u q : List Val}
    {r : Option ℚ}
    (hu : flattenAll U = .ok u) (hq : flattenAll Q = .ok q)
    (hr : get_output_error U Q = .ok r) :
    u.length = q.length ∧ countTensors u = countTensors q ∧
      countTensors q ≠ 0 ∧
      ∃ ts, collectTerms (u.zip q) = .ok ts ∧
        r = (nanSum ts).map (· / (countTensors q : ℚ)) := by
  unfold get_output_error at hr
  rw [hu, hq] at hr
  simp only [ok_bind] at hr
  by_cases h1 : u.length = q.length
  · rw [if_neg (fun hc => hc h1)] at hr
    by_cases h2 : countTensors u = countTensors q
    · rw [if_neg (fun hc => hc h2)] at hr
      cases hcol : collectTerms (u.zip q) with
      | error e =>
          rw [hcol, error_bind] at hr
          exact absurd hr (fun hc => Except.noConfusion hc)
      | ok ts =>
          rw [hcol, ok_bind] at hr
          by_cases h3 : countTensors q = 0
          · rw [if_pos h3] at hr
            exact absurd hr (throw_ne_ok _ _)
          · rw [if_neg h3] at hr
            exact ⟨h1, h2, h3, ts, rfl, (Except.ok.inj hr).symm⟩
    · rw [if_pos h2] at hr
      exact absurd hr (throw_ne_ok _ _)
  · rw [if_pos h1] at hr
    exact absurd hr (throw_ne_ok _ _)

/-! ### Spec-side definition of the error metric (for the refinement claim C7) -/

/-- The zipped positions whose entries are tensors on both sides. -/
def bothTensorPairs (u q : List Val) : List (Val × Val) :=
  (u.zip q).filter (fun p => p.1.isTensor && p.2.isTensor)

/-- Follows the spec's words ("computes the mean absolute-difference (L1)
loss averaged over all paired tensor elements, counting only elements that
are tensors in both sequences"): the per-pair mean L1 losses of the
both-tensor positions, averaged over the number of those positions. -/
def specOutputError (u q : List Val) : Option ℚ :=
  (nanSum ((bothTensorPairs u q).map pairLoss)).map
    (· / ((bothTensorPairs u q).length : ℚ))

/-- C7: on every successful run, `get_output_error` flattens both paired
sequences (hypotheses `hu`, `hq`), and returns the mean L1 loss over
exactly the positions whose entries are tensors in both flattened lists,
with that tensor-pair count as the averaging denominator (conclusion: the
result coincides with `specOutputError`, the direct transcription of the
spec's description).  The code filters on the first sequence only and
divides by the tensor count of the second, but on a non-raising run the
two filters and both counts agree. -/
theorem get_output_error_is_mean_l1_over_both_tensor_pairs
    {U Q : List (Val × Val)} {u q : List Val} {r : Option ℚ}
    (hu : flattenAll U = .ok u) (hq : flattenAll Q = .ok q)
    (hr : get_output_error U Q = .ok r) :
    u.length = q.length ∧ r = specOutputError u q := by
  obtain ⟨hlen, hcnt, h0, ts, hcol, hrr⟩ := get_output_error_ok_elim hu hq hr
  obtain ⟨himp, hts⟩ := collectTerms_ok hcol
  have hfilter := filter_fst_eq_filter_both himp
  have hcount : countTensors u = (bothTensorPairs u q).length := by
    rw [countTensors_eq_zip_filter_length u q hlen, hfilter]; rfl
  refine ⟨hlen, ?_⟩
  rw [hrr, hts]
  simp only [hfilter, ← hcnt, hcount]
  rfl

/-- Witness input for `get_output_error_is_mean_l1_over_both_tensor_pairs`. -/
def c7input : List (Val × Val) :=
  [(Val.pylist [Val.tens (Tensor.dim0 1), Val.obj], Val.obj),
   (Val.tens (Tensor.dimN [Tensor.dim0 4]), Val.obj)]

/-- The flattening of `c7input`. -/
def c7flat : List Val :=
  [Val.tens (Tensor.dim0 1), Val.obj, Val.tens (Tensor.dim0 4)]

theorem get_output_error_is_mean_l1_witness :
    flattenAll c7input = .ok c7flat ∧
      some 0 = specOutputError c7flat c7flat :=
  ⟨rfl,
    (@get_output_error_is_mean_l1_over_both_tensor_pairs c7input c7input
      c7flat c7flat (some 0) rfl rfl (by
        simp [get_output_error, flattenAll, flattenOne, collectTerms,
          l1_loss, meanAbsDiff, Tensor.elems, Tensor.elemsList,
          Tensor.sameShape, Tensor.sameShapeList, nanSum, nanAdd,
          countTensors, Val.isTensor, ok_bind, c7input, c7flat])).2⟩

/-- Helper for C8: once both checks have passed, the only exceptions the
rest of the function can raise are `TypeError`, `RuntimeError` or
`ZeroDivisionError`. -/
theorem get_output_error_post_check_errors {U Q : List (Val × Val)}
    {u q : List Val}
    (hu : flattenAll U = .ok u) (hq : flattenAll Q = .ok q)
    (hlen : u.length = q.length) (hcnt : countTensors u = countTensors q) :
    ∀ e, get_output_error U Q = .error e →
      e = .typeError ∨ e = .runtimeError ∨ e = .zeroDivisionError := by
  intro e hr
  unfold get_output_error at hr
  rw [hu, hq] at hr
  simp only [ok_bind] at hr
  rw [if_neg (fun hc => hc hlen), if_neg (fun hc => hc hcnt)] at hr
  cases hcol : collectTerms (u.zip q) with
  | error e0 =>
      rw [hcol, error_bind] at hr
      rcases collectTerms_error hcol with h | h <;>
        rw [← Except.error.inj hr, h] <;> simp
  | ok ts =>
      rw [hcol, ok_bind] at hr
      by_cases h0 : countTensors q = 0
      · rw [if_pos h0] at hr
        rw [← Except.error.inj hr]; simp
      · rw [if_neg h0] at hr
        exact absurd hr (fun hc => Except.noConfusion hc)

/-- C8: with both flattenings given (`hu`, `hq`), `get_output_error`
raises `ValueError` whenever the flattened lengths differ; raises
`AssertionError` whenever the lengths agree but the tensor counts differ;
and raises neither of those two failures when lengths and tensor counts
both agree. -/
theorem get_output_error_length_and_count_checks
    {U Q : List (Val × Val)} {u q : List Val}
    (hu : flattenAll U = .ok u) (hq : flattenAll Q = .ok q) :
    (u.length ≠ q.length → get_output_error U Q = .error .valueError) ∧
      (u.length = q.length → countTensors u ≠ countTensors q →
        get_output_error U Q = .error .assertionError) ∧
      (u.length = q.length → countTensors u = countTensors q →
        get_output_error U Q ≠ .error .valueError ∧
          get_output_error U Q ≠ .error .assertionError) := by
  refine ⟨?_, ?_, ?_⟩
  · intro hne
    unfold get_output_error
    rw [hu, hq]
    simp only [ok_bind]
    rw [if_pos hne]; rfl
  · intro hlen hcne
    unfold get_output_error
    rw [hu, hq]
    simp only [ok_bind]
    rw [if_neg (fun hc => hc hlen), if_pos hcne]; rfl
  · intro hlen hcnt
    constructor
    · intro hc
      rcases get_output_error_post_check_errors hu hq hlen hcnt _ hc with
        h | h | h <;> exact PyErr.noConfusion h
    · intro hc
      rcases get_output_error_post_check_errors hu hq hlen hcnt _ hc with
        h | h | h <;> exact PyErr.noConfusion h

theorem get_output_error_length_check_witness :
    get_output_error [(Val.pylist [Val.obj], Val.obj)] [] =
      .error .valueError :=
  (@get_output_error_length_and_count_checks
    [(Val.pylist [Val.obj], Val.obj)] [] [Val.obj] [] rfl rfl).1
    (by decide)

/-- C9 (counterexample to the claim as stated): a valid paired sequence
`X` accepted by `get_output_error` on which `get_output_error X X` is not
0.  Its only output is a tensor of shape `[1, 0]`; flattening splits it
into one 0-element row tensor, both checks pass, and `l1_loss` on the
empty pair yields the float NaN (modelled as `none`), which the final sum
and division propagate to the returned value. -/
theorem get_output_error_self_nan_counterexample :
    get_output_error [(Val.tens (Tensor.dimN [Tensor.dimN []]), Val.obj)]
        [(Val.tens (Tensor.dimN [Tensor.dimN []]), Val.obj)] = .ok none ∧
      (none : Option ℚ) ≠ some 0 :=
  ⟨rfl, by simp⟩

/-- C9 (amended): `get_output_error X X` returns 0 for every accepted
`X` none of whose flattened tensor entries is empty (a 0-element tensor
makes the result NaN instead, see the counterexample). -/
theorem get_output_error_self_eq_zero
    {X : List (Val × Val)} {xs : List Val} {r : Option ℚ}
    (hx : flattenAll X = .ok xs)
    (hne : ∀ v ∈ xs, ∀ t, v = Val.tens t → t.elems ≠ [])
    (hr : get_output_error X X = .ok r) : r = some 0 := by
  obtain ⟨-, -, h0, ts, hcol, hrr⟩ := get_output_error_ok_elim hx hx hr
  obtain ⟨-, hts⟩ := collectTerms_ok hcol
  have hall : ∀ x ∈ ts, x = some 0 := by
    intro x hxm
    rw [hts] at hxm
    obtain ⟨p, hp, hpx⟩ := List.mem_map.mp hxm
    have hp' := List.mem_filter.mp hp
    rw [zip_self] at hp'
    obtain ⟨v, hv, hvp⟩ := List.mem_map.mp hp'.1
    have htens := hp'.2
    rw [← hvp] at htens
    cases v with
    | pylist l => exact absurd htens (by simp [Val.isTensor])
    | obj => exact absurd htens (by simp [Val.isTensor])
    | tens t =>
        rw [← hpx, ← hvp]
        exact meanAbsDiff_self (hne _ hv t rfl)
  rw [hrr, nanSum_all_zero hall]
  simp

theorem get_output_error_self_eq_zero_witness :
    flattenAll [(Val.pylist [Val.tens (Tensor.dim0 3)], Val.obj)] =
        .ok [Val.tens (Tensor.dim0 3)] ∧
      (some 0 : Option ℚ) = some 0 :=
  ⟨rfl, @get_output_error_self_eq_zero
    [(Val.pylist [Val.tens (Tensor.dim0 3)], Val.obj)]
    [Val.tens (Tensor.dim0 3)] (some 0)
    rfl
    (by
      intro v hv t ht
      simp only [List.mem_singleton] at hv
      rw [hv] at ht
      rw [(Val.tens.inj ht).symm]
      simp [Tensor.elems])
    (by
      simp [get_output_error, flattenAll, flattenOne, collectTerms,
        l1_loss, meanAbsDiff, Tensor.elems, Tensor.elemsList,
        Tensor.sameShape, Tensor.sameShapeList, nanSum, nanAdd,
        countTensors, Val.isTensor, ok_bind])⟩

/-- C10: when both inputs flatten successfully to equal-length lists with
zero tensor entries, the length and count checks pass but the final
division `0 / num_q` is the integer division `0 / 0`:
`ZeroDivisionError`. -/
theorem get_output_error_zero_tensor_division
    {U Q : List (Val × Val)} {u q : List Val}
    (hu : flattenAll U = .ok u) (hq : flattenAll Q = .ok q)
    (hlen : u.length = q.length)
    (hcu : countTensors u = 0) (hcq : countTensors q = 0) :
    get_output_error U Q = .error .zeroDivisionError := by
  have hnotens : ∀ v ∈ u, v.isTensor = false := by
    intro v hv
    have := List.filter_eq_nil_iff.mp
      (List.length_eq_zero.mp (by exact hcu : (u.filter Val.isTensor).length = 0))
    simpa using this v hv
  have hzip : ∀ p ∈ u.zip q, (Prod.fst p).isTensor = false := by
    intro p hp
    exact hnotens p.1 (List.of_mem_zip hp).1
  unfold get_output_error
  rw [hu, hq]
  simp only [ok_bind]
  rw [if_neg (fun hc => hc hlen), if_neg (fun hc => hc (hcu.trans hcq.symm)),
    collectTerms_no_tensor hzip, ok_bind, if_pos hcq]
  rfl

theorem get_output_error_zero_tensor_division_witness :
    get_output_error ([] : List (Val × Val)) [] =
      .error .zeroDivisionError :=
  @get_output_error_zero_tensor_division [] [] [] []
    rfl rfl rfl rfl rfl

/-! ## Part 2: `LayerCompressor` (layer_compressor.py)

The module tree is modelled as an object heap (id → module object), so
that Python's reference semantics — `self.layer` aliases a subtree of
`self.model`, and `set_layer` mutates objects in place — are captured
exactly.  A raised exception is modelled as `Option.none` (the
exception's kind is irrelevant to the claims about this file). -/

/-- Identity of a Python module object. -/
abbrev ModId := ℕ

/-- A dotted attribute path, as its list of segments. -/
abbrev Name := List String

/-- One `torch.nn.Module` object.  `isWrapper` marks instances of the
injected `module_compressor_class` (`ModuleCompressionWrapper`); such a
node's wrapped module is its child named `"layer"` (the wrapper's
`self.layer` attribute) and `wrapName` is the qualified name it was
constructed with.  `prunable` marks the module kinds that
`get_prunable_layers` reports (`torch.nn.Linear` etc.).
`preHooks` and `fwdHooks` hold the ids of the registered
forward-pre-hooks and forward-hooks. -/
structure Node where
  isWrapper : Bool
  wrapName : Name
  prunable : Bool
  preHooks : List ℕ
  fwdHooks : List ℕ
  children : List (String × ModId)
deriving DecidableEq, Repr

/-- The object heap: module id → module object. -/
abbrev Heap := List (ModId × Node)

/-- Association-list lookup (used for the heap and for the name-keyed
dicts; Python dict keys are unique, duplicates never arise). -/
def lookupKey {α β : Type} [DecidableEq α] : List (α × β) → α → Option β
  | [], _ => none
  | (k, v) :: t, a => if a = k then some v else lookupKey t a

/-- Dereference a module id. -/
def hfind (h : Heap) (i : ModId) : Option Node := lookupKey h i

/-- Mutate the object with id `i` in place. -/
def hset : Heap → ModId → Node → Heap
  | [], _, _ => []
  | (k, v) :: t, i, nd => (if k = i then (i, nd) else (k, v)) :: hset t i nd

/-- A `getattr` chain: resolve a dotted path from a module
(`operator.attrgetter`). -/
def getPath (h : Heap) : ModId → Name → Option ModId
  | i, [] => some i
  | i, a :: rest => do
      let nd ← hfind h i
      let c ← lookupKey nd.children a
      getPath h c rest

/-- Python `setattr` on a module's child dict: replace the existing
binding, or append a new one. -/
def setChild (cs : List (String × ModId)) (nm : String) (v : ModId) :
    List (String × ModId) :=
  if (lookupKey cs nm).isSome then
    cs.map (fun p => if p.1 = nm then (nm, v) else p)
  else cs ++ [(nm, v)]

/-- Modelled from the spec: `set_layer(name, module, owner)` (external
module-tree interface, spec section 6) resolves the dotted parent path
inside `owner` and rebinds the final attribute to the new module.
`none` models the raise on an empty name or an unresolvable path. -/
def set_layer (h : Heap) (owner : ModId) (p : Name) (v : ModId) :
    Option Heap :=
  match p.getLast? with
  | none => none
  | some a => do
      let parent ← getPath h owner p.dropLast
      let nd ← hfind h parent
      some (hset h parent { nd with children := setChild nd.children a v })

/-- The FSDP wrapper segment that `fix_fsdp_module_name` removes. -/
def fsdpToken : String := "_fsdp_wrapped_module"

/-- Modelled from the spec: `fix_fsdp_module_name(name)` normalizes a
sharded-wrapper-qualified name to a plain dotted path (spec section 6)
by dropping the FSDP wrapper segments. -/
def fix_fsdp_module_name (n : Name) : Name := n.filter (· != fsdpToken)

/-- `LayerCompressor._get_full_submodule_name` (lines 208-211): join the
non-empty components of `[self.name, name]` with dots and normalize.
(On segment lists, joining the non-empty parts is plain concatenation.) -/
def getFullSubmoduleName (lname nm : Name) : Name :=
  fix_fsdp_module_name (lname ++ nm)

/-- Modelled from the spec: `get_prunable_layers(layer)` (external
module-tree interface, spec section 6) enumerates the eligible
sub-modules as a mapping relative-dotted-name → module, in
`named_modules` pre-order.  `fuel` bounds the traversal depth; any value
of at least the heap size is enough for acyclic heaps. -/
def prunableAux (h : Heap) : ℕ → Name → ModId → List (Name × ModId)
  | 0, _, _ => []
  | fuel + 1, pre, i =>
      match hfind h i with
      | none => []
      | some nd =>
          (if nd.prunable then [(pre, i)] else []) ++
            nd.children.flatMap (fun c => prunableAux h fuel (pre ++ [c.1]) c.2)

/-- `get_prunable_layers` at the standard fuel. -/
def get_prunable_layers (h : Heap) (i : ModId) : List (Name × ModId) :=
  prunableAux h (h.length + 1) [] i

/-- The state of one `LayerCompressor` instance together with the object
heap of the model it works on.  `modules` is `self.modules` (`none`
models the Python value `None`), `handles` stores the
`(module, hook-id)` pairs underlying the retained hook handles, and
`nextId`/`nextHandle` supply fresh object and hook identities. -/
structure LC where
  heap : Heap
  nextId : ModId
  nextHandle : ℕ
  modelId : ModId
  layerId : ModId
  name : Name
  handles : List (ModId × ℕ)
  earlyStopHandle : Option (ModId × ℕ)
  modules : Option (List (Name × ModId))
deriving DecidableEq, Repr

/-- `LayerCompressor.compressible_modules` (lines 65-72):
`get_prunable_layers(self.layer)`. -/
def compressible_modules (s : LC) : List (Name × ModId) :=
  get_prunable_layers s.heap s.layerId

/-- Python dict assignment `d[k] = v` on an insertion-ordered dict. -/
def dictInsert (reg : List (Name × ModId)) (k : Name) (v : ModId) :
    List (Name × ModId) :=
  if (lookupKey reg k).isSome then
    reg.map (fun p => if p.1 = k then (k, v) else p)
  else reg ++ [(k, v)]

/-- The fresh `ModuleCompressionWrapper(full_name, layer)` object: a
non-prunable module whose `layer` child is the wrapped module. -/
def wrapperNode (fullName : Name) (orig : ModId) : Node :=
  { isWrapper := true, wrapName := fullName, prunable := false,
    preHooks := [], fwdHooks := [], children := [("layer", orig)] }

/-- A plain (non-wrapper) module object with the given prunability and
children and no registered hooks: the shape of ordinary model modules. -/
def plainNode (pr : Bool) (cs : List (String × ModId)) : Node :=
  { isWrapper := false
    wrapName := []
    prunable := pr
    preHooks := []
    fwdHooks := []
    children := cs }

/-- One iteration of the substitution loop of `pre_compress`
(lines 102-112): construct the wrapper, swap it in — at `full_name` on
the model when the relative name is empty ("special case if layer has no
children"), else at `name` on `self.layer` — and record it in
`self.modules`.  The `summon_full_params_context` around the swap only
gathers sharded parameters and does not change the module tree. -/
def wrapStep (s : LC) (e : Name × ModId) : Option LC :=
  let fullName := getFullSubmoduleName s.name e.1
  let wid := s.nextId
  let h1 : Heap := (wid, wrapperNode fullName e.2) :: s.heap
  (if e.1 = [] then set_layer h1 s.modelId fullName wid
   else set_layer h1 s.layerId e.1 wid) >>= fun h2 =>
  s.modules >>= fun reg =>
  some { s with
          heap := h2
          nextId := wid + 1
          modules := some (dictInsert reg e.1 wid) }

/-- One iteration of the hook loop of `pre_compress` (lines 116-123):
`self.handles.append(subset[name].register_forward_hook(add_batch(name)))`;
the hook is registered on the original module `subset[name]`. -/
def hookStep (subset : List (Name × ModId)) (s : LC) (e : Name × ModId) :
    Option LC := do
  let orig ← lookupKey subset e.1
  let nd ← hfind s.heap orig
  pure { s with
          heap := hset s.heap orig
            { nd with fwdHooks := nd.fwdHooks ++ [s.nextHandle] }
          nextHandle := s.nextHandle + 1
          handles := s.handles ++ [(orig, s.nextHandle)] }

/-- `LayerCompressor.pre_compress` (lines 95-123): wrap every
compressible module, re-fetch
`self.layer = operator.attrgetter(self.name)(self.model)` (which raises
on an empty name), then register one `add_batch` forward hook per
registry entry. -/
def pre_compress (s : LC) : Option LC :=
  let subset := compressible_modules s
  List.foldlM wrapStep s subset >>= fun s1 =>
  (if s1.name = [] then none
   else getPath s1.heap s1.modelId s1.name) >>= fun lid =>
  let s2 := { s1 with layerId := lid }
  s2.modules >>= fun reg =>
  List.foldlM (hookStep subset) s2 reg

/-- `handle.remove()` for an `add_batch` handle: delete the hook id from
the module's forward-hook dict. -/
def removeHook (h : Heap) (mid : ModId) (hid : ℕ) : Heap :=
  match hfind h mid with
  | none => h
  | some nd => hset h mid { nd with fwdHooks := nd.fwdHooks.erase hid }

/-- `LayerCompressor.post_compress` (lines 162-169): remove every
retained handle and clear the list.  Total — with no handles it is a
no-op. -/
def post_compress (s : LC) : LC :=
  { s with
      heap := s.handles.foldl (fun h e => removeHook h e.1 e.2) s.heap
      handles := [] }

/-- One iteration of `revert_layer_wrappers` (lines 175-185): restore
`module_wrapper.layer` at the wrapper's position — at `full_name` on the
model in the empty-name case, else at `name` on `self.layer`.  (The
per-iteration device synchronisation and cache release do not touch the
module tree.) -/
def revertStep (s : LC) (e : Name × ModId) : Option LC :=
  hfind s.heap e.2 >>= fun nd =>
  lookupKey nd.children "layer" >>= fun orig =>
  (if e.1 = [] then
     set_layer s.heap s.modelId (getFullSubmoduleName s.name e.1) orig
   else set_layer s.heap s.layerId e.1 orig) >>= fun h2 =>
  some { s with heap := h2 }

/-- `LayerCompressor.revert_layer_wrappers` (lines 171-186): restore all
wrapped modules, then set `self.modules = None`.  Iterating
`self.modules.items()` raises `AttributeError` when `self.modules` is
`None` — `none` models the raise, which happens before any tree
mutation. -/
def revert_layer_wrappers (s : LC) : Option LC := do
  let reg ← s.modules
  let s1 ← List.foldlM revertStep s reg
  pure { s1 with modules := none }

/-- `LayerCompressor.set_early_stop` (lines 74-85): register a
forward-pre-hook on `self.layer` whose body raises
`EarlyStopException(args, kwargs)`; retain the handle in
`self.early_stop_handle`.  (Every pre-hook of this model is an
early-stop hook — the file registers no other kind.) -/
def set_early_stop (s : LC) : LC :=
  match hfind s.heap s.layerId with
  | none => s
  | some nd =>
      { s with
          heap := hset s.heap s.layerId
            { nd with preHooks := nd.preHooks ++ [s.nextHandle] }
          nextHandle := s.nextHandle + 1
          earlyStopHandle := some (s.layerId, s.nextHandle) }

/-- Whether calling the module raises `EarlyStopException` from a
registered forward-pre-hook before its forward computation runs. -/
def hasEarlyStopPre (h : Heap) (i : ModId) : Bool :=
  match hfind h i with
  | some nd => !nd.preHooks.isEmpty
  | none => false

/-- Outcome of a full-network forward pass: normal completion, or the
`EarlyStopException` control signal carrying the aborted layer's
received input. -/
inductive FwdOut (I : Type) where
  | completed (out : I)
  | earlyStopped (captured : I)
deriving DecidableEq, Repr

/-- A sequential full-network forward pass over the layers `ids` with
abstract per-layer forward functions `f`: the list of layers whose own
forward computation executed, together with the outcome.  Calling a
layer first runs its forward-pre-hooks, so a registered early-stop hook
raises before the layer's forward (and any later layer) runs, carrying
exactly the `(args, kwargs)` the layer received. -/
def runLayers (h : Heap) {I : Type} (f : ModId → I → I) :
    List ModId → I → List ModId × FwdOut I
  | [], x => ([], .completed x)
  | i :: rest, x =>
      if hasEarlyStopPre h i then ([], .earlyStopped x)
      else
        let r := runLayers h f rest (f i x)
        (i :: r.1, r.2)

/-- Events observable during `LayerCompressor.compress`: a wrapper's
`compress(**self.args)` call (tagged with whether gradient tracking is
disabled at that point) and its `free()` call. -/
inductive CEvent where
  | compressCall (w : ModId) (noGrad : Bool)
  | freeCall (w : ModId)
deriving DecidableEq, Repr

/-- The body `compress_module` of `LayerCompressor.compress`
(lines 193-199): under the `@torch.no_grad()` decorator, if the module
is an instance of `self.module_compressor_class`, call
`module.compress(**self.args)` and then `module.free()`. -/
def compress_module (noGrad : Bool) (h : Heap) (i : ModId) : List CEvent :=
  match hfind h i with
  | some nd =>
      if nd.isWrapper then [.compressCall i noGrad, .freeCall i] else []
  | none => []

/-- `torch.nn.Module.apply(fn)`: apply `fn` to every submodule, children
first (depth-first), then the module itself; the result is the event
sequence in execution order. -/
def moduleApply (h : Heap) (fn : ModId → List CEvent) :
    ℕ → ModId → List CEvent
  | 0, _ => []
  | fuel + 1, i =>
      (match hfind h i with
       | some nd => nd.children.flatMap (fun c => moduleApply h fn fuel c.2)
       | none => []) ++ fn i

/-- `LayerCompressor.compress` (lines 188-206):
`self.layer.apply(compress_module)`, with `compress_module` running
under `torch.no_grad()`.  (The trailing device synchronisation and cache
release produce no compression events.) -/
def LC.compress (s : LC) (fuel : ℕ) : List CEvent :=
  moduleApply s.heap (compress_module true s.heap) fuel s.layerId

/-! ### Auxiliary lemmas about `Option` and the heap -/

theorem some_bind {α β : Type} (a : α) (f : α → Option β) :
    (some a >>= f) = f a := rfl

theorem none_bind {α β : Type} (f : α → Option β) :
    ((none : Option α) >>= f) = none := rfl

theorem obind_eq_some {α β : Type} {m : Option α} {f : α → Option β} {b : β}
    (h : m >>= f = some b) : ∃ a, m = some a ∧ f a = some b := by
  cases m with
  | none => exact absurd h (by rw [none_bind]; exact fun hc => Option.noConfusion hc)
  | some a => exact ⟨a, rfl, h⟩

theorem hfind_eq (h : Heap) (i : ModId) : hfind h i = lookupKey h i := rfl

theorem lookupKey_cons {α β : Type} [DecidableEq α] (k : α) (v : β)
    (t : List (α × β)) (a : α) :
    lookupKey ((k, v) :: t) a = if a = k then some v else lookupKey t a := rfl

theorem hset_cons (k : ModId) (v : Node) (t : Heap) (i : ModId) (nd : Node) :
    hset ((k, v) :: t) i nd =
      (if k = i then (i, nd) else (k, v)) :: hset t i nd := rfl

theorem hfind_hset_self {h : Heap} {i : ModId} {nd : Node}
    (hex : (hfind h i).isSome = true) : hfind (hset h i nd) i = some nd := by
  induction h with
  | nil => simp [hfind, lookupKey] at hex
  | cons p t ih =>
      obtain ⟨k, v⟩ := p
      by_cases hk : k = i
      · subst hk
        rw [hfind_eq, hset_cons, if_pos rfl, lookupKey_cons, if_pos rfl]
      · have hik : ¬ i = k := fun hc => hk hc.symm
        rw [hfind_eq, hset_cons, if_neg hk, lookupKey_cons, if_neg hik]
        rw [hfind_eq, lookupKey_cons, if_neg hik] at hex
        exact ih hex

theorem hfind_hset_ne {h : Heap} {i j : ModId} {nd : Node} (hne : j ≠ i) :
    hfind (hset h i nd) j = hfind h j := by
  induction h with
  | nil => rfl
  | cons p t ih =>
      obtain ⟨k, v⟩ := p
      by_cases hk : k = i
      · subst hk
        rw [hfind_eq, hset_cons, if_pos rfl, lookupKey_cons, if_neg hne,
          hfind_eq, lookupKey_cons]
        by_cases hjk : j = k
        · exact absurd hjk hne
        · rw [if_neg hjk]
          exact ih
      · rw [hfind_eq, hset_cons, if_neg hk, lookupKey_cons,
          hfind_eq, lookupKey_cons]
        by_cases hjk : j = k
        · rw [if_pos hjk, if_pos hjk]
        · rw [if_neg hjk, if_neg hjk]
          exact ih

/-! ### Claim C2: double revert -/

/-- C2 (amended): after a successful `revert_layer_wrappers` the wrapper
registry is the Python value `None`, so a second call raises
(`AttributeError` from iterating `None.items()`, raised before any tree
mutation) rather than completing silently. -/
theorem revert_layer_wrappers_twice_raises (s s1 : LC)
    (h : revert_layer_wrappers s = some s1) :
    s1.modules = none ∧ revert_layer_wrappers s1 = none := by
  unfold revert_layer_wrappers at h
  obtain ⟨reg, hreg, h2⟩ := obind_eq_some h
  obtain ⟨s2, hfold, h3⟩ := obind_eq_some h2
  have hs1 : s1 = { s2 with modules := none } := (Option.some.inj h3).symm
  refine ⟨by rw [hs1], ?_⟩
  unfold revert_layer_wrappers
  rw [hs1]
  rfl

/-- A trivial fresh `LayerCompressor` state used as the concrete input
for the C2 counterexample and witness. -/
def c2lc : LC :=
  { heap := []
    nextId := 0
    nextHandle := 0
    modelId := 0
    layerId := 0
    name := []
    handles := []
    earlyStopHandle := none
    modules := some [] }

/-- C2 (counterexample to the claim as stated): on a concrete instance
the first `revert_layer_wrappers` succeeds (acting on an empty registry)
but the second call raises (`none`), because the first call set
`self.modules = None` and the second iterates `None.items()`. -/
theorem revert_layer_wrappers_twice_counterexample :
    (revert_layer_wrappers c2lc).isSome = true ∧
      (revert_layer_wrappers c2lc).bind revert_layer_wrappers = none :=
  ⟨rfl, rfl⟩

theorem revert_layer_wrappers_twice_witness :
    ({ c2lc with modules := none } : LC).modules = none ∧
      revert_layer_wrappers { c2lc with modules := none } = none :=
  revert_layer_wrappers_twice_raises c2lc { c2lc with modules := none } rfl

/-! ### Claim C4: early stop -/

theorem hasEarlyStopPre_after_set {s : LC}
    (hnode : (hfind s.heap s.layerId).isSome = true) :
    hasEarlyStopPre (set_early_stop s).heap s.layerId = true := by
  unfold set_early_stop
  cases hnd : hfind s.heap s.layerId with
  | none => rw [hnd] at hnode; exact absurd hnode (by simp)
  | some nd =>
      simp only [hasEarlyStopPre]
      rw [hfind_hset_self (by rw [hnd]; rfl)]
      simp

/-- C4: after `set_early_stop`, the very first forward pass that reaches
the target layer aborts there: the layers executed are exactly the ones
in front of the target (none of the front layers has an early-stop
interception, hypothesis `hfront`), the target's own forward and all
later layers do not run, and the raised signal carries exactly the
`(args, kwargs)` the target received — the input folded through the
front layers. -/
theorem set_early_stop_aborts_at_layer {I : Type} (s : LC)
    (f : ModId → I → I) (front post : List ModId) (x : I)
    (hnode : (hfind s.heap s.layerId).isSome = true)
    (hfront : ∀ i ∈ front,
      hasEarlyStopPre (set_early_stop s).heap i = false) :
    runLayers (set_early_stop s).heap f (front ++ s.layerId :: post) x =
      (front, .earlyStopped (front.foldl (fun a i => f i a) x)) := by
  revert hfront
  induction front generalizing x with
  | nil =>
      intro _
      simp only [List.nil_append, runLayers, List.foldl_nil]
      rw [if_pos (hasEarlyStopPre_after_set hnode)]
  | cons i front ih =>
      intro hfront
      have hi := hfront i (List.mem_cons_self _ _)
      simp only [List.cons_append, runLayers, List.append_eq]
      rw [if_neg (by rw [hi]; exact fun hc => Bool.noConfusion hc)]
      rw [ih (f i x) (fun j hj => hfront j (List.mem_cons_of_mem _ hj))]
      simp

/-- Concrete state for the C4 witness: one plain module with id 5. -/
def c4lc : LC :=
  { heap := [(5, plainNode true [])]
    nextId := 6
    nextHandle := 0
    modelId := 5
    layerId := 5
    name := ["head"]
    handles := []
    earlyStopHandle := none
    modules := some [] }

theorem set_early_stop_aborts_witness :
    runLayers (set_early_stop c4lc).heap (fun _ n => n + 1)
        ([9] ++ c4lc.layerId :: [7]) 0 =
      ([9], .earlyStopped ([9].foldl (fun a i => (fun _ n => n + 1) i a) 0)) :=
  set_early_stop_aborts_at_layer c4lc (fun _ n => n + 1) [9] [7] 0 (by rfl)
    (by
      intro i hi
      simp only [List.mem_singleton] at hi
      subst hi
      rfl)

/-! ### Claim C6: compress visits exactly the wrappers, depth-first -/

/-- The modules of a subtree in depth-first (children-first) traversal
order, as visited by `torch.nn.Module.apply`. -/
def postorderIds (h : Heap) : ℕ → ModId → List ModId
  | 0, _ => []
  | fuel + 1, i =>
      (match hfind h i with
       | some nd => nd.children.flatMap (fun c => postorderIds h fuel c.2)
       | none => []) ++ [i]

/-- `isinstance(module, self.module_compressor_class)`. -/
def isWrapperAt (h : Heap) (i : ModId) : Bool :=
  match hfind h i with
  | some nd => nd.isWrapper
  | none => false

theorem filter_flatMap_comm {α β : Type} (l : List α) (f : α → List β)
    (p : β → Bool) :
    (l.flatMap f).filter p = l.flatMap (fun a => (f a).filter p) := by
  induction l with
  | nil => rfl
  | cons a l ih => simp [List.flatMap_cons, List.filter_append, ih]

theorem flatMap_flatMap {α β γ : Type} (l : List α) (f : α → List β)
    (g : β → List γ) :
    (l.flatMap f).flatMap g = l.flatMap (fun a => (f a).flatMap g) := by
  induction l with
  | nil => rfl
  | cons a l ih => simp [List.flatMap_cons, ih]

theorem moduleApply_compress_eq (h : Heap) (g : Bool) :
    ∀ (fuel : ℕ) (i : ModId),
      moduleApply h (compress_module g h) fuel i =
        ((postorderIds h fuel i).filter (isWrapperAt h)).flatMap
          (fun w => [.compressCall w g, .freeCall w]) := by
  intro fuel
  induction fuel with
  | zero => intro i; rfl
  | succ fuel ih =>
      intro i
      simp only [moduleApply, postorderIds, List.filter_append,
        List.flatMap_append]
      cases hnd : hfind h i with
      | none =>
          simp [compress_module, hnd, isWrapperAt, List.filter]
      | some nd =>
          congr 1
          · rw [filter_flatMap_comm, flatMap_flatMap]
            exact (List.flatMap_congr (fun c _ => (ih c.2).symm)).symm
          · simp only [compress_module, hnd, List.filter,
              isWrapperAt]
            cases nd.isWrapper <;> simp

/-- C6: `compress` performs, for every wrapper installed in the layer's
module tree and for no other module, the wrapper's `compress(**args)`
immediately followed by its `free()`, in depth-first traversal order of
the tree, with gradient tracking disabled (the `true` tag) for the whole
per-wrapper operation. -/
theorem compress_visits_wrappers_dfs (s : LC) (fuel : ℕ) :
    s.compress fuel =
      ((postorderIds s.heap fuel s.layerId).filter
          (isWrapperAt s.heap)).flatMap
        (fun w => [.compressCall w true, .freeCall w]) :=
  moduleApply_compress_eq s.heap true fuel s.layerId

/-! ### Claim C5: `calibrate_layer` -/

/-- A Python value in the calibration data flow: a tensor tagged with the
device it currently lives on (the numeric payload is an opaque tag), a
nested container, or any other object (attention masks, positions and
similar non-tensor context are containers/objects). -/
inductive DVal where
  | dtens (payload : ℕ) (device : String)
  | dlist (xs : List DVal)
  | dobj
deriving Repr

mutual
/-- Modelled from the spec: `tensors_to_device(value, device)` moves
every tensor inside a (possibly nested) value to the device, leaving
non-tensor leaves unchanged. -/
def tensors_to_device : DVal → String → DVal
  | .dtens d _, dev => .dtens d dev
  | .dlist xs, dev => .dlist (tensorsToDeviceList xs dev)
  | .dobj, _ => .dobj

/-- `tensors_to_device` mapped over the entries of a container. -/
def tensorsToDeviceList : List DVal → String → List DVal
  | [], _ => []
  | v :: vs, dev => tensors_to_device v dev :: tensorsToDeviceList vs dev
end

/-- `LayerCompressor.calibrate_layer` (lines 125-160).  One intermediate
is an `(args, kwargs)` pair; the layer's computation is the abstract
`layerFn`, and `dev` is `get_execution_device(self.layer)` (modelled
from the spec: external execution-device resolution; it is resolved on
the same layer each iteration, hence constant).  The loop writes into a
`None`-initialised output list exactly as the source does
(`outputs = [None for _ in range(len(intermediates))]`); the progress
bar and the per-sample device synchronisation, cache release and garbage
collection do not change the outputs.  `calibStep` is one loop
iteration: `outputs[idx] = ...` for an in-range index. -/
def calibStep {α β : Type} (l : List α) (g : α → β)
    (outs : List (Option β)) (idx : ℕ) : List (Option β) :=
  match l.get? idx with
  | some e => outs.set idx (some (g e))
  | none => outs

/-- The per-sample body of the loop (lines 148-151): move the positional
and keyword arguments to the execution device, call the layer, move the
output back to `"cpu"`, and pair it with the original keyword
arguments. -/
def calibBody (dev : String) (layerFn : DVal → DVal → DVal)
    (e : DVal × DVal) : DVal × DVal :=
  (tensors_to_device
    (layerFn (tensors_to_device e.1 dev) (tensors_to_device e.2 dev))
    "cpu", e.2)

/-- The loop of `calibrate_layer`, written as the source writes it:
`for idx in tqdm(range(len(intermediates))): ... outputs[idx] = ...`. -/
def calibrate_layer (dev : String) (layerFn : DVal → DVal → DVal)
    (intermediates : List (DVal × DVal)) : List (Option (DVal × DVal)) :=
  (List.range intermediates.length).foldl
    (calibStep intermediates (calibBody dev layerFn))
    (List.replicate intermediates.length none)

theorem set_append_of_length {α : Type} {B : List α} {k : ℕ}
    (hB : B.length = k) (C : List α) (x : α) :
    (B ++ C).set k x = B ++ C.set 0 x := by
  induction B generalizing k with
  | nil => rw [← hB]; rfl
  | cons b B ih =>
      cases k with
      | zero => simp at hB
      | succ k =>
          simp only [List.cons_append, List.set, List.append_eq]
          rw [ih (by simpa using hB)]

theorem range_foldl_set {α β : Type} (l : List α) (g : α → β) :
    ∀ k, k ≤ l.length →
      (List.range k).foldl (calibStep l g)
        (List.replicate l.length (none : Option β)) =
      (l.take k).map (fun e => some (g e)) ++
        List.replicate (l.length - k) none := by
  intro k
  induction k with
  | zero => intro _; simp
  | succ k ih =>
      intro hk
      have hk' : k ≤ l.length := Nat.le_of_succ_le hk
      have hlt : k < l.length := Nat.lt_of_succ_le hk
      rw [List.range_succ, List.foldl_append, ih hk']
      simp only [List.foldl_cons, List.foldl_nil, calibStep,
        List.get?_eq_getElem?, List.getElem?_eq_getElem hlt]
      have hlen : ((l.take k).map (fun e => some (g e))).length = k := by
        simp [List.length_take, Nat.min_eq_left hk']
      rw [set_append_of_length hlen]
      have hnk : l.length - k = (l.length - (k + 1)) + 1 := by omega
      rw [hnk, List.replicate_succ]
      simp only [List.set, List.map_take]
      rw [List.take_succ]
      have hlt2 : k < (List.map (fun e => some (g e)) l).length := by
        simpa using hlt
      rw [List.getElem?_eq_getElem hlt2]
      simp [List.getElem_map]

/-- C5: `calibrate_layer` returns one output per captured intermediate,
in order: the `i`-th entry pairs the layer's output on the `i`-th
intermediate — its tensors moved to the layer's execution device for the
call and the output's tensors moved back to `"cpu"` afterwards — with
the `i`-th intermediate's original (unmoved) keyword arguments. -/
theorem calibrate_layer_maps_in_order (dev : String)
    (layerFn : DVal → DVal → DVal) (intermediates : List (DVal × DVal)) :
    calibrate_layer dev layerFn intermediates =
      intermediates.map (fun e => some (calibBody dev layerFn e)) := by
  have h := range_foldl_set intermediates (calibBody dev layerFn)
    intermediates.length le_rfl
  simpa [calibrate_layer, List.take_length] using h

/-! ### Claim C3: hook lifecycle balance -/

/-- Number of occurrences of hook id `x` in the forward-hook dict of the
module `m`. -/
def countHooks (h : Heap) (m : ModId) (x : ℕ) : ℕ :=
  match hfind h m with
  | some nd => nd.fwdHooks.count x
  | none => 0

/-- All registered forward-hook ids are below `n` (freshness bound for
PyTorch's global handle-id counter). -/
def hookBound (h : Heap) (n : ℕ) : Prop :=
  ∀ p ∈ h, ∀ x ∈ p.2.fwdHooks, x < n

theorem lookupKey_none_iff {α β : Type} [DecidableEq α]
    {l : List (α × β)} {a : α} :
    lookupKey l a = none ↔ a ∉ l.map Prod.fst := by
  induction l with
  | nil => simp [lookupKey]
  | cons p t ih =>
      obtain ⟨k, v⟩ := p
      by_cases hk : a = k
      · subst hk; simp [lookupKey_cons]
      · simp [lookupKey_cons, if_neg hk, ih, hk]

theorem hfind_mem {h : Heap} {i : ModId} {nd : Node}
    (hf : hfind h i = some nd) : (i, nd) ∈ h := by
  induction h with
  | nil => exact absurd hf (by simp [hfind, lookupKey])
  | cons p t ih =>
      obtain ⟨k, v⟩ := p
      by_cases hk : i = k
      · subst hk
        rw [hfind_eq, lookupKey_cons, if_pos rfl] at hf
        rw [← Option.some.inj hf]
        exact List.mem_cons_self _ _
      · rw [hfind_eq, lookupKey_cons, if_neg hk] at hf
        exact List.mem_cons_of_mem _ (ih hf)

theorem hookBound_hset {h : Heap} {n : ℕ} {i : ModId} {nd : Node}
    (hb : hookBound h n) (hnd : ∀ x ∈ nd.fwdHooks, x < n) :
    hookBound (hset h i nd) n := by
  intro p hp x hx
  induction h with
  | nil => simp [hset] at hp
  | cons q t ih =>
      obtain ⟨k, v⟩ := q
      rw [hset_cons] at hp
      rcases List.mem_cons.mp hp with hp | hp
      · by_cases hk : k = i
        · rw [if_pos hk] at hp
          rw [hp] at hx
          exact hnd x hx
        · rw [if_neg hk] at hp
          rw [hp] at hx
          exact hb (k, v) (List.mem_cons_self _ _) x hx
      · exact ih (fun q hq => hb q (List.mem_cons_of_mem _ hq)) hp

theorem hookBound_cons {h : Heap} {n : ℕ} {i : ModId} {nd : Node}
    (hb : hookBound h n) (hnd : ∀ x ∈ nd.fwdHooks, x < n) :
    hookBound ((i, nd) :: h) n := by
  intro p hp x hx
  rcases List.mem_cons.mp hp with hp | hp
  · rw [hp] at hx; exact hnd x hx
  · exact hb p hp x hx

theorem countHooks_hset_ne {h : Heap} {i m : ModId} {nd : Node} {x : ℕ}
    (hne : m ≠ i) : countHooks (hset h i nd) m x = countHooks h m x := by
  rw [countHooks, countHooks, hfind_hset_ne hne]

theorem hookBound_mono {h : Heap} {n k : ℕ} (hb : hookBound h n)
    (hk : n ≤ k) : hookBound h k := by
  intro p hp x hx
  exact Nat.lt_of_lt_of_le (hb p hp x hx) hk

/-- `set_layer` only rebinds children; it never changes the registered
forward hooks, so the hook bound survives it. -/
theorem hookBound_set_layer {h h2 : Heap} {n : ℕ} {o : ModId} {p : Name}
    {v : ModId} (hb : hookBound h n) (hs : set_layer h o p v = some h2) :
    hookBound h2 n := by
  unfold set_layer at hs
  cases hlast : p.getLast? with
  | none => rw [hlast] at hs; exact absurd hs (by simp)
  | some a =>
      rw [hlast] at hs
      obtain ⟨parent, hpar, hs2⟩ := obind_eq_some hs
      obtain ⟨nd, hnd, hs3⟩ := obind_eq_some hs2
      rw [← Option.some.inj hs3]
      exact hookBound_hset hb
        (fun x hx => hb (parent, nd) (hfind_mem hnd) x hx)

/-- Through the wrap phase the handle list, the handle counter and the
hook bound are untouched, and the registry grows by exactly the
processed keys (appended in order). -/
theorem wrapFold_handles :
    ∀ (es : List (Name × ModId)) (s t : LC) (reg : List (Name × ModId)),
      s.modules = some reg →
      (∀ e ∈ es, (e.1 ∈ es.map Prod.fst → e.1 ∉ reg.map Prod.fst)) →
      (es.map Prod.fst).Nodup →
      List.foldlM wrapStep s es = some t →
      hookBound s.heap s.nextHandle →
      ∃ reg2, t.modules = some reg2 ∧
        reg2.map Prod.fst = reg.map Prod.fst ++ es.map Prod.fst ∧
        t.handles = s.handles ∧ t.nextHandle = s.nextHandle ∧
        hookBound t.heap t.nextHandle := by
  intro es
  induction es with
  | nil =>
      intro s t reg hreg _ _ hfold hb
      rw [List.foldlM_nil] at hfold
      rw [← Option.some.inj hfold]
      exact ⟨reg, hreg, by simp, rfl, rfl, hb⟩
  | cons e es ih =>
      intro s t reg hreg hdisj hnodup hfold hb
      rw [List.foldlM_cons] at hfold
      obtain ⟨s2, hstep, hrest⟩ := obind_eq_some hfold
      -- unpack the step
      unfold wrapStep at hstep
      obtain ⟨h2, hh2, hstep2⟩ := obind_eq_some hstep
      rw [hreg] at hstep2
      rw [some_bind] at hstep2
      have hs2 : s2 = { s with
          heap := h2
          nextId := s.nextId + 1
          modules := some (dictInsert reg e.1 s.nextId) } :=
        (Option.some.inj hstep2).symm
      have hkey : e.1 ∉ reg.map Prod.fst :=
        hdisj e (List.mem_cons_self _ _) (by simp)
      have hdict : dictInsert reg e.1 s.nextId = reg ++ [(e.1, s.nextId)] := by
        rw [dictInsert, if_neg (by
          rw [lookupKey_none_iff.mpr hkey]
          simp)]
      -- hook bound after the step
      have hbound1 : hookBound ((s.nextId, wrapperNode
          (getFullSubmoduleName s.name e.1) e.2) :: s.heap) s.nextHandle :=
        hookBound_cons hb (by simp [wrapperNode])
      have hb2 : hookBound h2 s.nextHandle := by
        by_cases hnil : e.1 = []
        · rw [if_pos hnil] at hh2
          exact hookBound_set_layer hbound1 hh2
        · rw [if_neg hnil] at hh2
          exact hookBound_set_layer hbound1 hh2
      have hdisj2 : ∀ f ∈ es, f.1 ∈ es.map Prod.fst →
          f.1 ∉ (dictInsert reg e.1 s.nextId).map Prod.fst := by
        intro f hf hfm
        rw [hdict]
        simp only [List.map_append, List.mem_append]
        rintro (hc | hc)
        · exact hdisj f (List.mem_cons_of_mem _ hf) (by simp [hfm]) hc
        · simp only [List.map_cons, List.map_nil, List.mem_singleton] at hc
          simp only [List.map_cons, List.nodup_cons] at hnodup
          exact hnodup.1 (hc ▸ hfm)
      obtain ⟨reg2, hreg2, hkeys, hhnd, hnh, hbfin⟩ :=
        ih s2 t (dictInsert reg e.1 s.nextId)
          (by rw [hs2]) hdisj2 (List.nodup_cons.mp hnodup).2 hrest
          (by rw [hs2]; exact hb2)
      refine ⟨reg2, hreg2, ?_, ?_, ?_, hbfin⟩
      · rw [hkeys, hdict]
        simp
      · rw [hhnd, hs2]
      · rw [hnh, hs2]

/-- The hook loop (`for name in self.modules: self.handles.append(...)`)
appends exactly one handle per registry entry, with a fresh hook id
registered exactly once on the looked-up module. -/
theorem hookFold_handles :
    ∀ (rs subset : List (Name × ModId)) (s t : LC),
      List.foldlM (hookStep subset) s rs = some t →
      hookBound s.heap s.nextHandle →
      (∀ e ∈ s.handles, e.2 < s.nextHandle ∧ countHooks s.heap e.1 e.2 = 1) →
      (s.handles.map Prod.snd).Nodup →
      t.handles.length = s.handles.length + rs.length ∧
        hookBound t.heap t.nextHandle ∧
        (∀ e ∈ t.handles, e.2 < t.nextHandle ∧
          countHooks t.heap e.1 e.2 = 1) ∧
        (t.handles.map Prod.snd).Nodup := by
  intro rs
  induction rs with
  | nil =>
      intro subset s t hfold hb hinv hnodup
      rw [List.foldlM_nil] at hfold
      rw [← Option.some.inj hfold]
      exact ⟨by simp, hb, hinv, hnodup⟩
  | cons r rs ih =>
      intro subset s t hfold hb hinv hnodup
      rw [List.foldlM_cons] at hfold
      obtain ⟨s2, hstep, hrest⟩ := obind_eq_some hfold
      unfold hookStep at hstep
      obtain ⟨orig, horig, hstep2⟩ := obind_eq_some hstep
      obtain ⟨nd, hnd, hstep3⟩ := obind_eq_some hstep2
      have hs2 : s2 = { s with
          heap := hset s.heap orig
            { nd with fwdHooks := nd.fwdHooks ++ [s.nextHandle] }
          nextHandle := s.nextHandle + 1
          handles := s.handles ++ [(orig, s.nextHandle)] } :=
        (Option.some.inj hstep3).symm
      have hndmem := hfind_mem hnd
      have hndb : ∀ x ∈ nd.fwdHooks, x < s.nextHandle :=
        fun x hx => hb (orig, nd) hndmem x hx
      have hb2 : hookBound s2.heap s2.nextHandle := by
        rw [hs2]
        exact hookBound_hset (hookBound_mono hb (Nat.le_succ _))
          (by
            intro x hx
            rcases List.mem_append.mp hx with hx | hx
            · exact Nat.lt_succ_of_lt (hndb x hx)
            · simp only [List.mem_singleton] at hx
              rw [hx]; exact Nat.lt_succ_self _)
      have hcount0 : nd.fwdHooks.count s.nextHandle = 0 :=
        List.count_eq_zero.mpr
          (fun hc => Nat.lt_irrefl _ (hndb _ hc))
      have hinv2 : ∀ e ∈ s2.handles,
          e.2 < s2.nextHandle ∧ countHooks s2.heap e.1 e.2 = 1 := by
        rw [hs2]
        intro e he
        rcases List.mem_append.mp he with he | he
        · obtain ⟨hlt, hcnt⟩ := hinv e he
          refine ⟨Nat.lt_succ_of_lt hlt, ?_⟩
          by_cases heo : e.1 = orig
          · rw [heo]
            rw [countHooks, hfind_hset_self (by rw [hnd]; rfl)]
            rw [heo, countHooks, hnd] at hcnt
            simpa [List.count_append,
              List.count_singleton, Nat.ne_of_lt hlt] using hcnt
          · rw [countHooks, hfind_hset_ne heo, ← countHooks, hcnt]
        · simp only [List.mem_singleton] at he
          rw [he]
          refine ⟨Nat.lt_succ_self _, ?_⟩
          rw [countHooks, hfind_hset_self (by rw [hnd]; rfl)]
          simp [List.count_append, hcount0]
      have hnodup2 : (s2.handles.map Prod.snd).Nodup := by
        rw [hs2]
        simp only [List.map_append, List.map_cons, List.map_nil]
        rw [List.nodup_append]
        refine ⟨hnodup, List.nodup_singleton _, ?_⟩
        intro x hx
        simp only [List.mem_singleton]
        intro hc
        obtain ⟨e, he, hex⟩ := List.mem_map.mp hx
        have := (hinv e he).1
        rw [hex, hc] at this
        exact Nat.lt_irrefl _ this
      obtain ⟨hlen, hbf, hinvf, hnodupf⟩ :=
        ih subset s2 t hrest hb2 hinv2 hnodup2
      refine ⟨?_, hbf, hinvf, hnodupf⟩
      rw [hlen, hs2]
      simp only [List.length_append, List.length_cons, List.length_nil]
      omega

theorem countHooks_removeHook_self (h : Heap) (m : ModId) (x : ℕ) :
    countHooks (removeHook h m x) m x = countHooks h m x - 1 := by
  unfold removeHook
  cases hnd : hfind h m with
  | none => simp [countHooks, hnd]
  | some nd =>
      rw [countHooks, hfind_hset_self (by rw [hnd]; rfl), countHooks, hnd]
      simp [List.count_erase_self]

theorem countHooks_removeHook_ne {h : Heap} {m2 m : ModId} {y x : ℕ}
    (hxy : x ≠ y) :
    countHooks (removeHook h m2 y) m x = countHooks h m x := by
  unfold removeHook
  cases hnd : hfind h m2 with
  | none => rfl
  | some nd =>
      by_cases hm : m = m2
      · subst hm
        rw [countHooks, hfind_hset_self (by rw [hnd]; rfl), countHooks, hnd]
        simp [List.count_erase_of_ne hxy]
      · rw [countHooks, hfind_hset_ne hm, countHooks]

theorem countHooks_removeHook_le (h : Heap) (m2 m : ModId) (y x : ℕ) :
    countHooks (removeHook h m2 y) m x ≤ countHooks h m x := by
  unfold removeHook
  cases hnd : hfind h m2 with
  | none => exact Nat.le_refl _
  | some nd =>
      by_cases hm : m = m2
      · subst hm
        rw [countHooks, hfind_hset_self (by rw [hnd]; rfl), countHooks, hnd]
        simpa using (List.erase_sublist y nd.fwdHooks).count_le x
      · rw [countHooks, hfind_hset_ne hm, countHooks]

theorem removeFold_preserves :
    ∀ (hs : List (ModId × ℕ)) (h : Heap) (m : ModId) (x : ℕ),
      (∀ y ∈ hs, y.2 ≠ x) →
      countHooks (hs.foldl (fun acc y => removeHook acc y.1 y.2) h) m x =
        countHooks h m x := by
  intro hs
  induction hs with
  | nil => intro h m x _; rfl
  | cons y hs ih =>
      intro h m x hne
      rw [List.foldl_cons]
      rw [ih (removeHook h y.1 y.2) m x
        (fun z hz => hne z (List.mem_cons_of_mem _ hz))]
      exact countHooks_removeHook_ne
        (fun hc => hne y (List.mem_cons_self _ _) hc.symm)

/-- The removal loop of `post_compress` clears every registered hook. -/
theorem removeFold_clears :
    ∀ (hs : List (ModId × ℕ)) (h : Heap),
      (∀ e ∈ hs, countHooks h e.1 e.2 ≤ 1) →
      (hs.map Prod.snd).Nodup →
      ∀ e ∈ hs,
        countHooks (hs.foldl (fun acc y => removeHook acc y.1 y.2) h)
          e.1 e.2 = 0 := by
  intro hs
  induction hs with
  | nil => intro h _ _ e he; simp at he
  | cons y hs ih =>
      intro h hcnt hnodup e he
      simp only [List.map_cons, List.nodup_cons] at hnodup
      rw [List.foldl_cons]
      rcases List.mem_cons.mp he with he | he
      · subst he
        rw [removeFold_preserves hs (removeHook h e.1 e.2) e.1 e.2
          (by
            intro z hz hc
            exact hnodup.1 (hc ▸ List.mem_map_of_mem Prod.snd hz))]
        rw [countHooks_removeHook_self]
        have := hcnt e (List.mem_cons_self _ _)
        omega
      · exact ih (removeHook h y.1 y.2)
          (fun z hz => Nat.le_trans
            (countHooks_removeHook_le h y.1 z.1 y.2 z.2)
            (hcnt z (List.mem_cons_of_mem _ hz)))
          hnodup.2 e he

/-- C3: starting from a fresh `LayerCompressor` (empty handle list,
fresh registry), after `pre_compress` the handle list has one entry per
compressible module; `post_compress` empties the handle list and removes
every registered `add_batch` hook from the module it was registered on
(so no further statistic accumulation can be triggered by later forward
passes); and `post_compress` with no handles is a no-op. -/
theorem pre_post_compress_hook_balance (s s1 : LC)
    (hfresh : s.handles = [])
    (hreg : s.modules = some [])
    (hnodup : ((compressible_modules s).map Prod.fst).Nodup)
    (hhb : hookBound s.heap s.nextHandle)
    (hpre : pre_compress s = some s1) :
    s1.handles.length = (compressible_modules s).length ∧
      (post_compress s1).handles = [] ∧
      (∀ e ∈ s1.handles, countHooks (post_compress s1).heap e.1 e.2 = 0) ∧
      (∀ t : LC, t.handles = [] → post_compress t = t) := by
  unfold pre_compress at hpre
  obtain ⟨sa, hwrap, h2⟩ := obind_eq_some hpre
  obtain ⟨lid, hlid, h3⟩ := obind_eq_some h2
  obtain ⟨reg, hregs, hhook⟩ := obind_eq_some h3
  obtain ⟨reg2, hreg2, hkeys, hhnd, hnh, hbf⟩ :=
    wrapFold_handles (compressible_modules s) s sa [] hreg
      (by intro e he hm; simp) hnodup hwrap hhb
  have hregeq : reg = reg2 := by
    have : ({ sa with layerId := lid } : LC).modules = sa.modules := rfl
    rw [this, hreg2] at hregs
    exact (Option.some.inj hregs).symm
  have hreglen : reg.length = (compressible_modules s).length := by
    rw [hregeq]
    have h1 := congrArg List.length hkeys
    simpa using h1
  obtain ⟨hlen, hbf2, hinv2, hnodup2⟩ :=
    hookFold_handles reg (compressible_modules s)
      { sa with layerId := lid } s1 hhook
      (by
        show hookBound sa.heap sa.nextHandle
        exact hbf)
      (by
        intro e he
        simp only [hhnd, hfresh] at he
        exact absurd he (List.not_mem_nil e))
      (by simp [hhnd, hfresh])
  refine ⟨?_, rfl, ?_, ?_⟩
  · rw [hlen]
    simp only [hhnd, hfresh]
    simp [hreglen]
  · intro e he
    exact removeFold_clears s1.handles s1.heap
      (fun z hz => Nat.le_of_eq (hinv2 z hz).2) hnodup2 e he
  · intro t ht
    cases t
    dsimp only at ht
    subst ht
    simp [post_compress]

/-- Concrete fresh compressor for the C3 witness: a model (id 0) whose
`"head"` child (id 1) is the layer, itself a prunable leaf (the
degenerate empty-name case). -/
def c3lc : LC :=
  { heap := [(0, plainNode false [("head", 1)]), (1, plainNode true [])]
    nextId := 2
    nextHandle := 0
    modelId := 0
    layerId := 1
    name := ["head"]
    handles := []
    earlyStopHandle := none
    modules := some [] }

/-- The state `pre_compress` produces from `c3lc`. -/
def c3lcAfter : LC :=
  { heap := [(2, wrapperNode ["head"] 1),
             (0, plainNode false [("head", 2)]),
             (1, { plainNode true [] with fwdHooks := [0] })]
    nextId := 3
    nextHandle := 1
    modelId := 0
    layerId := 2
    name := ["head"]
    handles := [(1, 0)]
    earlyStopHandle := none
    modules := some [([], 2)] }

theorem pre_post_compress_hook_balance_witness :
    c3lcAfter.handles.length = (compressible_modules c3lc).length ∧
      (post_compress c3lcAfter).handles = [] ∧
      (∀ e ∈ c3lcAfter.handles,
        countHooks (post_compress c3lcAfter).heap e.1 e.2 = 0) ∧
      (∀ t : LC, t.handles = [] → post_compress t = t) :=
  pre_post_compress_hook_balance c3lc c3lcAfter rfl rfl (by decide)
    (by unfold hookBound; decide) (by rfl)

/-! ### Claim C1: bijective substitution

Frame lemmas for `getPath` under the three heap mutations the round trip
performs: rebinding one child of one node (`set_layer`), allocating a
fresh wrapper object, and hook registration (which never touches
children). -/

theorem getPath_cons_eq (h : Heap) (i : ModId) (a : String) (rest : Name) :
    getPath h i (a :: rest) =
      (hfind h i) >>= (fun nd => (lookupKey nd.children a) >>=
        (fun c => getPath h c rest)) := rfl

theorem getPath_append (h : Heap) (p : Name) :
    ∀ (i : ModId) (q : Name),
      getPath h i (p ++ q) = (getPath h i p) >>= (fun m => getPath h m q) := by
  induction p with
  | nil => intro i q; rfl
  | cons a p ih =>
      intro i q
      rw [List.cons_append, getPath_cons_eq, getPath_cons_eq]
      cases hfind h i with
      | none => rfl
      | some nd =>
          rw [some_bind, some_bind]
          cases lookupKey nd.children a with
          | none => rfl
          | some c =>
              rw [some_bind, some_bind]
              exact ih c q

theorem lookupKey_mem {α β : Type} [DecidableEq α] {l : List (α × β)}
    {a : α} {b : β} (h : lookupKey l a = some b) : (a, b) ∈ l := by
  induction l with
  | nil => exact absurd h (by simp [lookupKey])
  | cons p t ih =>
      obtain ⟨k, v⟩ := p
      by_cases hk : a = k
      · subst hk
        rw [lookupKey_cons, if_pos rfl] at h
        rw [← Option.some.inj h]
        exact List.mem_cons_self _ _
      · rw [lookupKey_cons, if_neg hk] at h
        exact List.mem_cons_of_mem _ (ih h)

theorem lookupKey_of_mem_nodup {α β : Type} [DecidableEq α]
    {l : List (α × β)} {a : α} {b : β} (hm : (a, b) ∈ l)
    (hn : (l.map Prod.fst).Nodup) : lookupKey l a = some b := by
  induction l with
  | nil => exact absurd hm (List.not_mem_nil _)
  | cons p t ih =>
      obtain ⟨k, v⟩ := p
      simp only [List.map_cons, List.nodup_cons] at hn
      rcases List.mem_cons.mp hm with hm1 | hm2
      · rw [← hm1, lookupKey_cons, if_pos rfl]
      · by_cases hk : a = k
        · subst hk
          have : a ∈ List.map Prod.fst t :=
            List.mem_map.mpr ⟨(a, b), hm2, rfl⟩
          exact absurd this hn.1
        · rw [lookupKey_cons, if_neg hk]
          exact ih hm2 hn.2

theorem lookupKey_append_split {α β : Type} [DecidableEq α]
    (l1 l2 : List (α × β)) (a : α) :
    lookupKey (l1 ++ l2) a =
      match lookupKey l1 a with
      | some b => some b
      | none => lookupKey l2 a := by
  induction l1 with
  | nil => simp [lookupKey]
  | cons p t ih =>
      obtain ⟨k, v⟩ := p
      by_cases hk : a = k
      · subst hk
        simp [lookupKey_cons]
      · simp only [List.cons_append, lookupKey_cons, if_neg hk]
        exact ih

theorem lookupKey_map_replace {cs : List (String × ModId)} {nm : String}
    {v : ModId} (hin : (lookupKey cs nm).isSome = true) :
    lookupKey (cs.map (fun p => if p.1 = nm then (nm, v) else p)) nm =
      some v := by
  induction cs with
  | nil => simp [lookupKey] at hin
  | cons p t ih =>
      obtain ⟨k, c⟩ := p
      by_cases hk : k = nm
      · subst hk
        simp [lookupKey_cons]
      · have hnk : ¬ nm = k := fun hc => hk hc.symm
        rw [lookupKey_cons, if_neg hnk] at hin
        simp only [List.map_cons]
        rw [if_neg hk, lookupKey_cons, if_neg hnk]
        exact ih hin

theorem lookupKey_map_replace_ne {cs : List (String × ModId)} {nm b : String}
    {v : ModId} (hb : b ≠ nm) :
    lookupKey (cs.map (fun p => if p.1 = nm then (nm, v) else p)) b =
      lookupKey cs b := by
  induction cs with
  | nil => rfl
  | cons p t ih =>
      obtain ⟨k, c⟩ := p
      simp only [List.map_cons]
      by_cases hk : k = nm
      · subst hk
        rw [if_pos rfl, lookupKey_cons, if_neg hb, lookupKey_cons, if_neg hb]
        exact ih
      · rw [if_neg hk, lookupKey_cons, lookupKey_cons]
        by_cases hbk : b = k
        · rw [if_pos hbk, if_pos hbk]
        · rw [if_neg hbk, if_neg hbk]
          exact ih

theorem lookupKey_eq_none_of_isSome_false {α β : Type} [DecidableEq α]
    {l : List (α × β)} {a : α} (h : (lookupKey l a).isSome = false) :
    lookupKey l a = none := by
  cases hc : lookupKey l a with
  | none => rfl
  | some b => rw [hc] at h; exact absurd h (by simp)

theorem lookupKey_setChild_self (cs : List (String × ModId)) (nm : String)
    (v : ModId) : lookupKey (setChild cs nm v) nm = some v := by
  unfold setChild
  cases hin : (lookupKey cs nm).isSome with
  | true => rw [if_pos rfl]; exact lookupKey_map_replace hin
  | false =>
      rw [if_neg (by simp)]
      rw [lookupKey_append_split, lookupKey_eq_none_of_isSome_false hin,
        lookupKey_cons]
      rw [if_pos rfl]

theorem lookupKey_setChild_ne {cs : List (String × ModId)} {nm b : String}
    (hb : b ≠ nm) (v : ModId) :
    lookupKey (setChild cs nm v) b = lookupKey cs b := by
  unfold setChild
  cases hin : (lookupKey cs nm).isSome with
  | true => rw [if_pos rfl]; exact lookupKey_map_replace_ne hb
  | false =>
      rw [if_neg (by simp)]
      rw [lookupKey_append_split]
      cases hc : lookupKey cs b with
      | some c => rfl
      | none => rw [lookupKey_cons, if_neg hb]; rfl

/-- Object ids and child references are bounded by the allocation
counter. -/
def heapBound (h : Heap) (n : ℕ) : Prop :=
  ∀ p ∈ h, p.1 < n ∧ ∀ c ∈ p.2.children, c.2 < n

theorem heapBound_mono {h : Heap} {n k : ℕ} (hb : heapBound h n)
    (hk : n ≤ k) : heapBound h k := by
  intro p hp
  obtain ⟨h1, h2⟩ := hb p hp
  exact ⟨Nat.lt_of_lt_of_le h1 hk, fun c hc => Nat.lt_of_lt_of_le (h2 c hc) hk⟩

/-- A fresh allocation is invisible to walks from an old root. -/
theorem getPath_cons_fresh {h : Heap} {n m : ModId} {nd : Node}
    (hb : heapBound h n) (hm : n ≤ m) :
    ∀ (q : Name) (r : ModId), r < n →
      getPath ((m, nd) :: h) r q = getPath h r q := by
  intro q
  induction q with
  | nil => intro r _; rfl
  | cons a rest ih =>
      intro r hr
      rw [getPath_cons_eq, getPath_cons_eq]
      have hrm : r ≠ m := fun hc => absurd (hc ▸ hr) (Nat.not_lt.mpr hm)
      have hfr : hfind ((m, nd) :: h) r = hfind h r := by
        rw [hfind_eq, lookupKey_cons, if_neg hrm]
        rfl
      rw [hfr]
      cases hfd : hfind h r with
      | none => rfl
      | some nd2 =>
          rw [some_bind, some_bind]
          cases hl : lookupKey nd2.children a with
          | none => rfl
          | some c =>
              rw [some_bind, some_bind]
              exact ih c ((hb (r, nd2) (hfind_mem hfd)).2 (a, c)
                (lookupKey_mem hl))

/-- Replacing a node with one that has the same children is invisible to
walks (hook registration and removal do this). -/
theorem getPath_hset_same_children {h : Heap} {i : ModId} {nd nd2 : Node}
    (hf : hfind h i = some nd) (hc : nd2.children = nd.children) :
    ∀ (q : Name) (r : ModId), getPath (hset h i nd2) r q = getPath h r q := by
  intro q
  induction q with
  | nil => intro r; rfl
  | cons a rest ih =>
      intro r
      rw [getPath_cons_eq, getPath_cons_eq]
      by_cases hr : r = i
      · subst hr
        rw [hfind_hset_self (by rw [hf]; rfl), hf, some_bind, some_bind, hc]
        cases lookupKey nd.children a with
        | none => rfl
        | some c => rw [some_bind, some_bind]; exact ih c
      · rw [hfind_hset_ne hr]
        cases hfind h r with
        | none => rfl
        | some nd3 =>
            rw [some_bind, some_bind]
            cases lookupKey nd3.children a with
            | none => rfl
            | some c => rw [some_bind, some_bind]; exact ih c

/-- Whether the walk of `q` from `r` ever stands at node `P` about to
take the child binding named `a` (the walk never inspects the final
node, so only indices strictly below `q.length` matter). -/
def takesBindingB (h : Heap) (r : ModId) (q : Name) (P : ModId)
    (a : String) : Bool :=
  (List.range q.length).any (fun t =>
    (getPath h r (q.take t) == some P) && (q.get? t == some a))

theorem takesBindingB_intro {h : Heap} {r : ModId} {q : Name} {P : ModId}
    {a : String} {t : ℕ} (ht : t < q.length)
    (hw : getPath h r (q.take t) = some P) (ha : q.get? t = some a) :
    takesBindingB h r q P a = true := by
  unfold takesBindingB
  rw [List.any_eq_true]
  refine ⟨t, List.mem_range.mpr ht, ?_⟩
  rw [List.get?_eq_getElem?] at ha
  simp [hw, ha]

theorem any_congr_of_mem {α : Type} {l : List α} {f g : α → Bool}
    (h : ∀ x ∈ l, f x = g x) : l.any f = l.any g := by
  induction l with
  | nil => rfl
  | cons x t ih =>
      simp only [List.any_cons]
      rw [h x (List.mem_cons_self _ _),
        ih (fun y hy => h y (List.mem_cons_of_mem _ hy))]

theorem takesBindingB_congr {h h2 : Heap} {r : ModId} {q : Name}
    (hw : ∀ t, t < q.length →
      getPath h2 r (q.take t) = getPath h r (q.take t))
    (P : ModId) (a : String) :
    takesBindingB h2 r q P a = takesBindingB h r q P a := by
  unfold takesBindingB
  apply any_congr_of_mem
  intro t htm
  rw [hw t (List.mem_range.mp htm)]

theorem none_bind_ne_some {α β : Type} {f : α → Option β} {b : β} :
    ((none : Option α) >>= f) ≠ some b := fun hc => Option.noConfusion hc

/-- Decompose the resolution of a path ending in segment `a`. -/
theorem getPath_snoc_elim {h : Heap} {L : ModId} {p : Name} {a : String}
    {m : ModId} (hg : getPath h L (p ++ [a]) = some m) :
    ∃ P nd, getPath h L p = some P ∧ hfind h P = some nd ∧
      lookupKey nd.children a = some m := by
  rw [getPath_append] at hg
  cases hP : getPath h L p with
  | none => rw [hP] at hg; exact absurd hg none_bind_ne_some
  | some P =>
      rw [hP, some_bind, getPath_cons_eq] at hg
      cases hnd : hfind h P with
      | none => rw [hnd] at hg; exact absurd hg none_bind_ne_some
      | some nd =>
          rw [hnd, some_bind] at hg
          cases hl : lookupKey nd.children a with
          | none => rw [hl] at hg; exact absurd hg none_bind_ne_some
          | some c =>
              rw [hl, some_bind] at hg
              refine ⟨P, nd, rfl, hnd, ?_⟩
              rw [hl]
              exact hg

/-- The key frame lemma: rebinding child `a` of node `P` does not change
any prefix of a walk that never takes that binding. -/
theorem walk_hset_slot {h : Heap} {P : ModId} {nd : Node} {a : String}
    (v : ModId) (hfP : hfind h P = some nd) {r : ModId} {q : Name}
    (hav : takesBindingB h r q P a = false) :
    ∀ t, t ≤ q.length →
      getPath (hset h P { nd with children := setChild nd.children a v })
        r (q.take t) = getPath h r (q.take t) := by
  intro t
  induction t with
  | zero => intro _; rfl
  | succ t ih =>
      intro hts
      have ht2 : t ≤ q.length := Nat.le_of_succ_le hts
      have htlt : t < q.length := Nat.lt_of_succ_le hts
      rw [List.take_succ, List.getElem?_eq_getElem htlt]
      simp only [Option.toList_some]
      rw [getPath_append, getPath_append, ih ht2]
      cases hmid : getPath h r (q.take t) with
      | none => rfl
      | some M =>
          rw [some_bind, some_bind, getPath_cons_eq, getPath_cons_eq]
          by_cases hMP : M = P
          · subst hMP
            have hqa : ¬ (q[t] = a) := by
              intro hc
              have hcontra := takesBindingB_intro htlt hmid
                (by rw [List.get?_eq_getElem?,
                  List.getElem?_eq_getElem htlt, hc])
              rw [hcontra] at hav
              exact Bool.noConfusion hav
            rw [hfind_hset_self (by rw [hfP]; rfl), hfP, some_bind,
              some_bind]
            rw [show ({ nd with children := setChild nd.children a v } :
              Node).children = setChild nd.children a v from rfl]
            rw [lookupKey_setChild_ne hqa]
            cases lookupKey nd.children q[t] with
            | none => rfl
            | some c =>
                rw [some_bind, some_bind]
                rfl
          · rw [hfind_hset_ne hMP]
            cases hfind h M with
            | none => rfl
            | some nd2 =>
                rw [some_bind, some_bind]
                cases lookupKey nd2.children q[t] with
                | none => rfl
                | some c =>
                    rw [some_bind, some_bind]
                    rfl

/-- Full-path version of `walk_hset_slot`. -/
theorem getPath_hset_slot {h : Heap} {P : ModId} {nd : Node} {a : String}
    {v : ModId} (hfP : hfind h P = some nd) {r : ModId} {q : Name}
    (hav : takesBindingB h r q P a = false) :
    getPath (hset h P { nd with children := setChild nd.children a v })
      r q = getPath h r q := by
  have := walk_hset_slot v hfP hav q.length (Nat.le_refl _)
  simpa [List.take_length] using this

/-- Reading the freshly written slot. -/
theorem getPath_hset_slot_target {h : Heap} {P : ModId} {nd : Node}
    {a : String} {v : ModId} (hfP : hfind h P = some nd) {r : ModId}
    {p0 : Name}
    (hpar : getPath
        (hset h P { nd with children := setChild nd.children a v })
        r p0 = some P) :
    getPath (hset h P { nd with children := setChild nd.children a v })
      r (p0 ++ [a]) = some v := by
  rw [getPath_append, hpar, some_bind, getPath_cons_eq,
    hfind_hset_self (by rw [hfP]; rfl), some_bind]
  rw [show ({ nd with children := setChild nd.children a v } :
    Node).children = setChild nd.children a v from rfl]
  rw [lookupKey_setChild_self, some_bind]
  rfl

theorem takesBindingB_dropLast_mono {h : Heap} {r : ModId} {q : Name}
    {P : ModId} {a : String}
    (hf : takesBindingB h r q.dropLast P a = true) :
    takesBindingB h r q P a = true := by
  unfold takesBindingB at hf ⊢
  rw [List.any_eq_true] at hf ⊢
  obtain ⟨t, htm, hcond⟩ := hf
  have htlen : t < q.dropLast.length := List.mem_range.mp htm
  have hq1 : q.dropLast.length = q.length - 1 := by
    simp [List.length_dropLast]
  have htq : t < q.length := by omega
  refine ⟨t, List.mem_range.mpr htq, ?_⟩
  have htake : q.dropLast.take t = q.take t := by
    rw [List.dropLast_eq_take, List.take_take]
    congr 1
    omega
  have hget : q.dropLast.get? t = q.get? t := by
    rw [List.dropLast_eq_take]
    rw [List.get?_take (by omega)]
  rw [htake, hget] at hcond
  exact hcond

theorem hfind_isSome_hset {h : Heap} {i j : ModId} {nd : Node}
    (hs : (hfind h i).isSome = true) :
    (hfind (hset h j nd) i).isSome = true := by
  by_cases hij : i = j
  · subst hij
    rw [hfind_hset_self hs]
    rfl
  · rw [hfind_hset_ne hij]
    exact hs

/-! Soundness of the prunable-module enumeration. -/

theorem prunableAux_paths_extend {h : Heap} :
    ∀ (fuel : ℕ) (pre : Name) (i : ModId) (p : Name) (m : ModId),
      (p, m) ∈ prunableAux h fuel pre i → ∃ q, p = pre ++ q := by
  intro fuel
  induction fuel with
  | zero => intro pre i p m hm; simp [prunableAux] at hm
  | succ fuel ih =>
      intro pre i p m hm
      rw [prunableAux] at hm
      cases hnd : hfind h i with
      | none => rw [hnd] at hm; simp at hm
      | some nd =>
          rw [hnd] at hm
          rcases List.mem_append.mp hm with hm | hm
          · cases hp : nd.prunable with
            | false => rw [hp] at hm; simp at hm
            | true =>
                rw [hp] at hm
                simp only [if_pos, List.mem_singleton] at hm
                exact ⟨[], by rw [(Prod.mk.injEq _ _ _ _).mp hm |>.1]; simp⟩
          · obtain ⟨c, hc, hm2⟩ := List.mem_flatMap.mp hm
            obtain ⟨q, hq⟩ := ih (pre ++ [c.1]) c.2 p m hm2
            exact ⟨c.1 :: q, by rw [hq]; simp⟩

theorem prunableAux_sound {h : Heap}
    (hcn : ∀ p ∈ h, (p.2.children.map Prod.fst).Nodup) :
    ∀ (fuel : ℕ) (pre : Name) (i : ModId) (p : Name) (m : ModId),
      (p, m) ∈ prunableAux h fuel pre i →
      ∃ q, p = pre ++ q ∧ getPath h i q = some m := by
  intro fuel
  induction fuel with
  | zero => intro pre i p m hm; simp [prunableAux] at hm
  | succ fuel ih =>
      intro pre i p m hm
      rw [prunableAux] at hm
      cases hnd : hfind h i with
      | none => rw [hnd] at hm; simp at hm
      | some nd =>
          rw [hnd] at hm
          rcases List.mem_append.mp hm with hm | hm
          · cases hp : nd.prunable with
            | false => rw [hp] at hm; simp at hm
            | true =>
                rw [hp] at hm
                simp only [if_pos, List.mem_singleton] at hm
                obtain ⟨hp1, hp2⟩ := (Prod.mk.injEq _ _ _ _).mp hm
                exact ⟨[], by rw [hp1]; simp, by rw [hp2]; rfl⟩
          · obtain ⟨c, hc, hm2⟩ := List.mem_flatMap.mp hm
            obtain ⟨q, hq, hg⟩ := ih (pre ++ [c.1]) c.2 p m hm2
            refine ⟨c.1 :: q, by rw [hq]; simp, ?_⟩
            rw [getPath_cons_eq, hnd, some_bind]
            rw [lookupKey_of_mem_nodup
              (show (c.1, c.2) ∈ nd.children from hc)
              (hcn (i, nd) (hfind_mem hnd))]
            rw [some_bind]
            exact hg

/-- If the empty relative name is reported, the layer is itself the only
prunable module (prunable modules are leaves). -/
theorem compressible_nil_case {h : Heap} {L : ModId} {m : ModId}
    (hleaf : ∀ p ∈ h, p.2.prunable = true → p.2.children = [])
    (hm : ([], m) ∈ get_prunable_layers h L) :
    get_prunable_layers h L = [([], L)] := by
  unfold get_prunable_layers at hm ⊢
  rw [prunableAux] at hm ⊢
  cases hnd : hfind h L with
  | none => rw [hnd] at hm; simp at hm
  | some nd =>
      rw [hnd] at hm
      rcases List.mem_append.mp hm with hm | hm
      · cases hp : nd.prunable with
        | false => rw [hp] at hm; simp at hm
        | true =>
            have hch : nd.children = [] := hleaf (L, nd) (hfind_mem hnd) hp
            simp [hp, hch]
      · obtain ⟨c, hc, hm2⟩ := List.mem_flatMap.mp hm
        obtain ⟨q, hq⟩ := prunableAux_paths_extend _ _ _ _ _ hm2
        simp at hq

theorem hfind_cons_self (m : ModId) (nd : Node) (h : Heap) :
    hfind ((m, nd) :: h) m = some nd := by
  rw [hfind_eq, lookupKey_cons, if_pos rfl]

theorem hfind_cons_ne {i m : ModId} (hne : i ≠ m) (nd : Node) (h : Heap) :
    hfind ((m, nd) :: h) i = hfind h i := by
  rw [hfind_eq, lookupKey_cons, if_neg hne]
  rfl

theorem heapBound_cons {h : Heap} {n : ℕ} {m : ModId} {nd : Node}
    (hb : heapBound h n) (hm : m < n)
    (hnd : ∀ c ∈ nd.children, c.2 < n) : heapBound ((m, nd) :: h) n := by
  intro p hp
  rcases List.mem_cons.mp hp with hp | hp
  · rw [hp]; exact ⟨hm, hnd⟩
  · exact hb p hp

theorem heapBound_hset {h : Heap} {n : ℕ} {i : ModId} {nd : Node}
    (hb : heapBound h n) (hi : i < n)
    (hnd : ∀ c ∈ nd.children, c.2 < n) : heapBound (hset h i nd) n := by
  intro p hp
  induction h with
  | nil => simp [hset] at hp
  | cons q t ih =>
      obtain ⟨k, v⟩ := q
      rw [hset_cons] at hp
      rcases List.mem_cons.mp hp with hp | hp
      · by_cases hk : k = i
        · rw [if_pos hk] at hp
          rw [hp]
          exact ⟨hi, hnd⟩
        · rw [if_neg hk] at hp
          rw [hp]
          exact hb (k, v) (List.mem_cons_self _ _)
      · exact ih (fun z hz => hb z (List.mem_cons_of_mem _ hz)) hp

theorem setChild_mem {cs : List (String × ModId)} {nm : String} {v : ModId} :
    ∀ c ∈ setChild cs nm v, c ∈ cs ∨ c.2 = v := by
  unfold setChild
  intro c hc
  by_cases hin : (lookupKey cs nm).isSome = true
  · rw [if_pos hin] at hc
    obtain ⟨p, hp, hpc⟩ := List.mem_map.mp hc
    by_cases hpk : p.1 = nm
    · rw [if_pos hpk] at hpc
      right
      rw [← hpc]
    · rw [if_neg hpk] at hpc
      left
      rw [← hpc]
      exact hp
  · rw [if_neg hin] at hc
    rcases List.mem_append.mp hc with hc | hc
    · exact Or.inl hc
    · right
      simp only [List.mem_singleton] at hc
      rw [hc]

theorem getPath_lt_bound {h : Heap} {n : ℕ} (hb : heapBound h n) :
    ∀ (p : Name) (r : ModId), r < n → ∀ {P}, getPath h r p = some P → P < n := by
  intro p
  induction p with
  | nil =>
      intro r hr P hP
      rw [← Option.some.inj hP]
      exact hr
  | cons a rest ih =>
      intro r hr P hP
      rw [getPath_cons_eq] at hP
      cases hnd : hfind h r with
      | none => rw [hnd] at hP; exact absurd hP none_bind_ne_some
      | some nd =>
          rw [hnd, some_bind] at hP
          cases hl : lookupKey nd.children a with
          | none => rw [hl] at hP; exact absurd hP none_bind_ne_some
          | some c =>
              rw [hl, some_bind] at hP
              exact ih c ((hb (r, nd) (hfind_mem hnd)).2 (a, c)
                (lookupKey_mem hl)) hP

theorem takesBindingB_false_dropLast {h : Heap} {r : ModId} {q : Name}
    {P : ModId} {a : String} (hf : takesBindingB h r q P a = false) :
    takesBindingB h r q.dropLast P a = false := by
  cases hc : takesBindingB h r q.dropLast P a with
  | false => rfl
  | true =>
      rw [takesBindingB_dropLast_mono hc] at hf
      exact Bool.noConfusion hf

/-- Computable form of "the walk of `q` from `r` avoids the
parent-binding slot of path `p` (as resolved from `L`)". -/
def slotAvoidB (h : Heap) (L r : ModId) (q p : Name) : Bool :=
  match p.getLast?, getPath h L p.dropLast with
  | some a, some P => !(takesBindingB h r q P a)
  | _, _ => true

theorem slotAvoidB_elim {h : Heap} {L r : ModId} {q p : Name} {a : String}
    {P : ModId} (hs : slotAvoidB h L r q p = true)
    (ha : p.getLast? = some a) (hP : getPath h L p.dropLast = some P) :
    takesBindingB h r q P a = false := by
  unfold slotAvoidB at hs
  rw [ha, hP] at hs
  change (!takesBindingB h r q P a) = true at hs
  simpa using hs

theorem slotAvoidB_intro {h : Heap} {L r : ModId} {q p : Name} {a : String}
    {P : ModId} (ha : p.getLast? = some a)
    (hP : getPath h L p.dropLast = some P)
    (ht : takesBindingB h r q P a = false) :
    slotAvoidB h L r q p = true := by
  unfold slotAvoidB
  rw [ha, hP]
  change (!takesBindingB h r q P a) = true
  rw [ht]
  rfl

theorem slotAvoidB_congr {h h2 : Heap} {L r : ModId} {q p : Name}
    (hpar : getPath h2 L p.dropLast = getPath h L p.dropLast)
    (htks : ∀ P a, takesBindingB h2 r q P a = takesBindingB h r q P a) :
    slotAvoidB h2 L r q p = slotAvoidB h L r q p := by
  unfold slotAvoidB
  rw [hpar]
  cases p.getLast? with
  | none => rfl
  | some a =>
      cases getPath h L p.dropLast with
      | none => rfl
      | some P =>
          change (!takesBindingB h2 r q P a) = (!takesBindingB h r q P a)
          rw [htks]

/-- Registry entry `w` is the installed wrapper of subset entry `e`. -/
def wrapped (h : Heap) (L : ModId) (nm : Name) (e w : Name × ModId) : Prop :=
  w.1 = e.1 ∧
    hfind h w.2 =
      some (wrapperNode (getFullSubmoduleName nm e.1) e.2) ∧
    getPath h L e.1 = some w.2

theorem forall₂_map_fst {R : Name × ModId → Name × ModId → Prop}
    (hR : ∀ e w, R e w → w.1 = e.1) :
    ∀ {es ws : List (Name × ModId)}, List.Forall₂ R es ws →
      ws.map Prod.fst = es.map Prod.fst := by
  intro es ws hf
  induction hf with
  | nil => rfl
  | cons h1 _ ih => simp [hR _ _ h1, ih]

theorem forall₂_mem_left {α β : Type} {R : α → β → Prop}
    {es : List α} {ws : List β} (hf : List.Forall₂ R es ws) :
    ∀ e ∈ es, ∃ w ∈ ws, R e w := by
  induction hf with
  | nil => intro e he; exact absurd he (List.not_mem_nil _)
  | cons h1 h2 ih =>
      intro e he
      rcases List.mem_cons.mp he with he | he
      · exact ⟨_, List.mem_cons_self _ _, he ▸ h1⟩
      · obtain ⟨w, hw, hr⟩ := ih e he
        exact ⟨w, List.mem_cons_of_mem _ hw, hr⟩

theorem fix_fsdp_clean {n : Name} (hm : fsdpToken ∉ n) :
    fix_fsdp_module_name n = n := by
  unfold fix_fsdp_module_name
  apply List.filter_eq_self.mpr
  intro x hx
  rw [bne_iff_ne]
  exact fun hc => hm (hc ▸ hx)

theorem set_layer_eq {h : Heap} {o : ModId} {p : Name} (hne : p ≠ [])
    {P : ModId} {nd : Node}
    (hpar : getPath h o p.dropLast = some P)
    (hfp : hfind h P = some nd) (v : ModId) :
    set_layer h o p v =
      some (hset h P { nd with children := setChild nd.children (p.getLast hne) v }) := by
  have ha : p.getLast? = some (p.getLast hne) := List.getLast?_eq_getLast p hne
  simp only [set_layer, ha, hpar, some_bind, hfp]

theorem take_eq_dropLast_take {q : Name} {t : ℕ} (ht : t < q.length) :
    q.take t = q.dropLast.take t := by
  rw [List.dropLast_eq_take, List.take_take]
  congr 1
  omega

/-- Invariant of the substitution loop of `pre_compress` over entries
with non-empty relative names: each processed entry leaves a wrapper
object at its slot, the registry grows by exactly the processed pairs in
order, old high objects and all walks avoiding the touched slots are
untouched. -/
theorem wrapFold_walks :
    ∀ (es : List (Name × ModId)) (s t : LC) (reg : List (Name × ModId))
      (N : ModId),
      List.foldlM wrapStep s es = some t →
      s.modules = some reg →
      heapBound s.heap s.nextId →
      N ≤ s.nextId →
      s.layerId < N →
      (∀ e ∈ es, e.1 ≠ []) →
      (es.map Prod.fst).Nodup →
      (∀ e ∈ es, e.1 ∉ reg.map Prod.fst) →
      (∀ e ∈ es, getPath s.heap s.layerId e.1 = some e.2) →
      (∀ e ∈ es, ∀ P, getPath s.heap s.layerId e.1.dropLast = some P →
        P < N) →
      (∀ e ∈ es, ∀ f ∈ es, e.1 ≠ f.1 →
        slotAvoidB s.heap s.layerId s.layerId e.1 f.1 = true) →
      (∀ e ∈ es,
        slotAvoidB s.heap s.layerId s.layerId e.1.dropLast e.1 = true) →
      (t.layerId = s.layerId ∧ t.modelId = s.modelId ∧ t.name = s.name ∧
        t.handles = s.handles ∧ t.nextHandle = s.nextHandle ∧
        t.earlyStopHandle = s.earlyStopHandle ∧
        t.nextId = s.nextId + es.length) ∧
      heapBound t.heap t.nextId ∧
      (∀ i nd, N ≤ i → hfind s.heap i = some nd →
        hfind t.heap i = some nd) ∧
      (∃ wl, t.modules = some (reg ++ wl) ∧
        List.Forall₂ (wrapped t.heap s.layerId s.name) es wl ∧
        (∀ w ∈ wl, s.nextId ≤ w.2)) ∧
      (∀ (r : ModId) (q : Name), r < N →
        (∀ e ∈ es, slotAvoidB s.heap s.layerId r q e.1 = true) →
        ∀ t2, t2 ≤ q.length →
          getPath t.heap r (q.take t2) = getPath s.heap r (q.take t2)) := by
  intro es
  induction es with
  | nil =>
      intro s t reg N hfold hreg hb hNn hLN hne hnodup hdisj hsound hPlt
        hpav hself
      rw [List.foldlM_nil] at hfold
      have ht : s = t := Option.some.inj hfold
      subst ht
      refine ⟨⟨rfl, rfl, rfl, rfl, rfl, rfl, by simp⟩, hb, ?_,
        ⟨[], by simp [hreg], List.Forall₂.nil, by simp⟩, ?_⟩
      · intro i nd _ hfi
        exact hfi
      · intro r q _ _ t2 _
        rfl
  | cons e es ih =>
      intro s t reg N hfold hreg hb hNn hLN hne hnodup hdisj hsound hPlt
        hpav hself
      rw [List.foldlM_cons] at hfold
      obtain ⟨s2, hstep, hrest⟩ := obind_eq_some hfold
      unfold wrapStep at hstep
      obtain ⟨h2, hh2, hstep2⟩ := obind_eq_some hstep
      rw [hreg, some_bind] at hstep2
      have hs2 : s2 = { s with
          heap := h2
          nextId := s.nextId + 1
          modules := some (dictInsert reg e.1 s.nextId) } :=
        (Option.some.inj hstep2).symm
      have hs2h : s2.heap = h2 := by rw [hs2]
      have hs2n : s2.nextId = s.nextId + 1 := by rw [hs2]
      have hs2L : s2.layerId = s.layerId := by rw [hs2]
      have hs2M : s2.modelId = s.modelId := by rw [hs2]
      have hs2nm : s2.name = s.name := by rw [hs2]
      have hs2hd : s2.handles = s.handles := by rw [hs2]
      have hs2nh : s2.nextHandle = s.nextHandle := by rw [hs2]
      have hs2es : s2.earlyStopHandle = s.earlyStopHandle := by rw [hs2]
      have hs2mod : s2.modules = some (dictInsert reg e.1 s.nextId) := by
        rw [hs2]
      have hheadne : e.1 ≠ [] := hne e (List.mem_cons_self _ _)
      rw [if_neg hheadne] at hh2
      have hLn : s.layerId < s.nextId := Nat.lt_of_lt_of_le hLN hNn
      simp only [List.map_cons, List.nodup_cons] at hnodup
      have hfne : ∀ f ∈ es, f.1 ≠ e.1 := by
        intro f hf hc
        exact hnodup.1 (List.mem_map.mpr ⟨f, hf, hc⟩)
      -- decompose the head path around its final segment
      have hsnoc : e.1.dropLast ++ [e.1.getLast hheadne] = e.1 :=
        List.dropLast_append_getLast hheadne
      have hga : e.1.getLast? = some (e.1.getLast hheadne) :=
        List.getLast?_eq_getLast e.1 hheadne
      have hsnd := hsound e (List.mem_cons_self _ _)
      rw [← hsnoc] at hsnd
      obtain ⟨P, ndP, hpar, hfndP, hlk⟩ := getPath_snoc_elim hsnd
      have hPltN : P < N := hPlt e (List.mem_cons_self _ _) P hpar
      have hPn : P < s.nextId := Nat.lt_of_lt_of_le hPltN hNn
      have he2lt : e.2 < s.nextId :=
        getPath_lt_bound hb e.1 s.layerId hLn
          (hsound e (List.mem_cons_self _ _))
      -- the freshly allocated wrapper is invisible to old walks
      have hcons : ∀ (q : Name) (r : ModId), r < s.nextId →
          getPath ((s.nextId,
            wrapperNode (getFullSubmoduleName s.name e.1) e.2) :: s.heap)
            r q = getPath s.heap r q :=
        getPath_cons_fresh hb (Nat.le_refl _)
      have hfrP : hfind ((s.nextId,
          wrapperNode (getFullSubmoduleName s.name e.1) e.2) :: s.heap) P =
          some ndP := by
        rw [hfind_cons_ne (Nat.ne_of_lt hPn)]
        exact hfndP
      have hparh1 : getPath ((s.nextId,
          wrapperNode (getFullSubmoduleName s.name e.1) e.2) :: s.heap)
          s.layerId e.1.dropLast = some P := by
        rw [hcons _ _ hLn]
        exact hpar
      have hsl := set_layer_eq hheadne hparh1 hfrP s.nextId
      have hh2eq : h2 = hset ((s.nextId,
          wrapperNode (getFullSubmoduleName s.name e.1) e.2) :: s.heap) P
          { ndP with children := setChild ndP.children (e.1.getLast hheadne) s.nextId } :=
        (Option.some.inj (hsl.symm.trans hh2)).symm
      have htks1 : ∀ (r : ModId) (q : Name), r < s.nextId →
          ∀ (P2 : ModId) (a2 : String),
            takesBindingB ((s.nextId,
              wrapperNode (getFullSubmoduleName s.name e.1) e.2) :: s.heap)
              r q P2 a2 = takesBindingB s.heap r q P2 a2 :=
        fun r q hr P2 a2 =>
          takesBindingB_congr (fun t2 _ => hcons (q.take t2) r hr) P2 a2
      -- prefix walks avoiding the written slot are unchanged
      have hWP : ∀ (r : ModId) (q : Name), r < s.nextId →
          takesBindingB s.heap r q P (e.1.getLast hheadne) = false →
          ∀ t2, t2 ≤ q.length →
            getPath h2 r (q.take t2) = getPath s.heap r (q.take t2) := by
        intro r q hr hav t2 ht2
        rw [hh2eq]
        rw [walk_hset_slot s.nextId hfrP
          (by rw [htks1 r q hr]; exact hav) t2 ht2]
        exact hcons (q.take t2) r hr
      have hWPfull : ∀ (r : ModId) (q : Name), r < s.nextId →
          takesBindingB s.heap r q P (e.1.getLast hheadne) = false →
          getPath h2 r q = getPath s.heap r q := by
        intro r q hr hav
        have h := hWP r q hr hav q.length (Nat.le_refl _)
        simpa [List.take_length] using h
      have hAv : ∀ (r : ModId) (x : Name),
          slotAvoidB s.heap s.layerId r x e.1 = true →
          takesBindingB s.heap r x P (e.1.getLast hheadne) = false :=
        fun r x hsx => slotAvoidB_elim hsx hga hpar
      have htks2 : ∀ (r : ModId) (q : Name), r < s.nextId →
          takesBindingB s.heap r q P (e.1.getLast hheadne) = false →
          ∀ P2 a2, takesBindingB h2 r q P2 a2 =
            takesBindingB s.heap r q P2 a2 :=
        fun r q hr hav P2 a2 =>
          takesBindingB_congr
            (fun t2 ht2 => hWP r q hr hav t2 (Nat.le_of_lt ht2)) P2 a2
      have hav0 : takesBindingB s.heap s.layerId e.1.dropLast P
          (e.1.getLast hheadne) = false :=
        hAv s.layerId e.1.dropLast (hself e (List.mem_cons_self _ _))
      -- the head slot now holds the wrapper
      have hparh2 : getPath h2 s.layerId e.1.dropLast = some P := by
        rw [hWPfull s.layerId e.1.dropLast hLn hav0]
        exact hpar
      have hheadslot : getPath h2 s.layerId e.1 = some s.nextId := by
        have hh := getPath_hset_slot_target hfrP (hh2eq ▸ hparh2)
        rw [hsnoc] at hh
        rw [hh2eq]
        exact hh
      -- facts about the remaining entries in the new heap
      have hsound2 : ∀ f ∈ es, getPath h2 s.layerId f.1 = some f.2 := by
        intro f hf
        rw [hWPfull s.layerId f.1 hLn
          (hAv _ _ (hpav f (List.mem_cons_of_mem _ hf) e
            (List.mem_cons_self _ _) (hfne f hf)))]
        exact hsound f (List.mem_cons_of_mem _ hf)
      have hpar2 : ∀ f ∈ es, getPath h2 s.layerId f.1.dropLast =
          getPath s.heap s.layerId f.1.dropLast := by
        intro f hf
        exact hWPfull s.layerId f.1.dropLast hLn
          (takesBindingB_false_dropLast
            (hAv _ _ (hpav f (List.mem_cons_of_mem _ hf) e
              (List.mem_cons_self _ _) (hfne f hf))))
      have hPlt2 : ∀ f ∈ es, ∀ P2,
          getPath h2 s.layerId f.1.dropLast = some P2 → P2 < N := by
        intro f hf P2 hP2
        refine hPlt f (List.mem_cons_of_mem _ hf) P2 ?_
        rw [← hpar2 f hf]
        exact hP2
      have hpav2 : ∀ f ∈ es, ∀ g ∈ es, f.1 ≠ g.1 →
          slotAvoidB h2 s.layerId s.layerId f.1 g.1 = true := by
        intro f hf g hg hfg
        rw [slotAvoidB_congr (hpar2 g hg)
          (htks2 s.layerId f.1 hLn
            (hAv _ _ (hpav f (List.mem_cons_of_mem _ hf) e
              (List.mem_cons_self _ _) (hfne f hf))))]
        exact hpav f (List.mem_cons_of_mem _ hf) g
          (List.mem_cons_of_mem _ hg) hfg
      have hself2 : ∀ f ∈ es,
          slotAvoidB h2 s.layerId s.layerId f.1.dropLast f.1 = true := by
        intro f hf
        rw [slotAvoidB_congr (hpar2 f hf)
          (htks2 s.layerId f.1.dropLast hLn
            (takesBindingB_false_dropLast
              (hAv _ _ (hpav f (List.mem_cons_of_mem _ hf) e
                (List.mem_cons_self _ _) (hfne f hf)))))]
        exact hself f (List.mem_cons_of_mem _ hf)
      -- allocation bound after the step
      have hb1 : heapBound ((s.nextId,
          wrapperNode (getFullSubmoduleName s.name e.1) e.2) :: s.heap)
          (s.nextId + 1) := by
        refine heapBound_cons (heapBound_mono hb (Nat.le_succ _))
          (Nat.lt_succ_self _) ?_
        intro c hc
        simp only [wrapperNode, List.mem_singleton] at hc
        rw [hc]
        exact Nat.lt_succ_of_lt he2lt
      have hb2 : heapBound h2 (s.nextId + 1) := by
        rw [hh2eq]
        refine heapBound_hset hb1 (Nat.lt_succ_of_lt hPn) ?_
        intro c hc
        rcases setChild_mem c hc with hc | hc
        · exact (hb1 (P, ndP) (hfind_mem hfrP)).2 c hc
        · rw [hc]
          exact Nat.lt_succ_self _
      -- old high objects survive the step
      have hhigh1 : ∀ i nd, N ≤ i → hfind s.heap i = some nd →
          hfind h2 i = some nd := by
        intro i nd hNi hfi
        rw [hh2eq]
        have hiP : i ≠ P := by
          intro hc
          rw [hc] at hNi
          exact absurd hPltN (Nat.not_lt.mpr hNi)
        rw [hfind_hset_ne hiP]
        have hiw : i ≠ s.nextId :=
          Nat.ne_of_lt (hb (i, nd) (hfind_mem hfi)).1
        rw [hfind_cons_ne hiw]
        exact hfi
      -- registry bookkeeping
      have hkey : e.1 ∉ reg.map Prod.fst := hdisj e (List.mem_cons_self _ _)
      have hdict : dictInsert reg e.1 s.nextId = reg ++ [(e.1, s.nextId)] := by
        rw [dictInsert, if_neg (by rw [lookupKey_none_iff.mpr hkey]; simp)]
      have hdisj2 : ∀ f ∈ es,
          f.1 ∉ (dictInsert reg e.1 s.nextId).map Prod.fst := by
        intro f hf
        rw [hdict]
        simp only [List.map_append, List.mem_append]
        rintro (hc | hc)
        · exact hdisj f (List.mem_cons_of_mem _ hf) hc
        · simp only [List.map_cons, List.map_nil, List.mem_singleton] at hc
          exact hfne f hf hc
      -- apply the induction hypothesis at the post-step state
      obtain ⟨⟨hLid, hMid, hNm, hHd, hNH, hES, hNid⟩, hbT, hhighT,
          ⟨wl', hmodT, hfaT, hwlT⟩, hO2T⟩ :=
        ih s2 t (dictInsert reg e.1 s.nextId) N hrest hs2mod
          (by rw [hs2h, hs2n]; exact hb2)
          (by rw [hs2n]; exact Nat.le_succ_of_le hNn)
          (by rw [hs2L]; exact hLN)
          (fun f hf => hne f (List.mem_cons_of_mem _ hf))
          hnodup.2 hdisj2
          (by rw [hs2h, hs2L]; exact hsound2)
          (by rw [hs2h, hs2L]; exact hPlt2)
          (by rw [hs2h, hs2L]; exact hpav2)
          (by rw [hs2h, hs2L]; exact hself2)
      rw [hs2L] at hLid
      rw [hs2M] at hMid
      rw [hs2nm] at hNm
      rw [hs2hd] at hHd
      rw [hs2nh] at hNH
      rw [hs2es] at hES
      rw [hs2n] at hNid
      rw [hs2h, hs2L] at hO2T
      rw [hs2h] at hhighT
      rw [hs2L, hs2nm] at hfaT
      rw [hs2n] at hwlT
      -- prefix walks of the head path itself are also unchanged
      have htksE : ∀ P2 a2, takesBindingB h2 s.layerId e.1 P2 a2 =
          takesBindingB s.heap s.layerId e.1 P2 a2 := by
        refine takesBindingB_congr ?_
        intro t2 ht2
        rw [take_eq_dropLast_take ht2]
        refine hWP s.layerId e.1.dropLast hLn hav0 t2 ?_
        rw [List.length_dropLast]
        omega
      have havq : ∀ f ∈ es,
          slotAvoidB h2 s.layerId s.layerId e.1 f.1 = true := by
        intro f hf
        rw [slotAvoidB_congr (hpar2 f hf) htksE]
        exact hpav e (List.mem_cons_self _ _) f (List.mem_cons_of_mem _ hf)
          (Ne.symm (hfne f hf))
      have hgT : getPath t.heap s.layerId e.1 = some s.nextId := by
        have hpres := hO2T s.layerId e.1 hLN havq e.1.length (Nat.le_refl _)
        rw [List.take_length] at hpres
        rw [hpres]
        exact hheadslot
      have hfwid2 : hfind h2 s.nextId =
          some (wrapperNode (getFullSubmoduleName s.name e.1) e.2) := by
        rw [hh2eq]
        rw [hfind_hset_ne (Ne.symm (Nat.ne_of_lt hPn))]
        exact hfind_cons_self _ _ _
      refine ⟨⟨hLid, hMid, hNm, hHd, hNH, hES, ?_⟩, hbT, ?_, ?_, ?_⟩
      · rw [hNid]
        show s.nextId + 1 + es.length = s.nextId + (es.length + 1)
        rw [Nat.add_assoc, Nat.add_comm 1 es.length]
      · intro i nd hNi hfi
        exact hhighT i nd hNi (hhigh1 i nd hNi hfi)
      · refine ⟨(e.1, s.nextId) :: wl', ?_, ?_, ?_⟩
        · rw [hmodT, hdict]
          simp [List.append_assoc]
        · refine List.Forall₂.cons ⟨rfl, ?_, hgT⟩ hfaT
          exact hhighT s.nextId _ hNn hfwid2
        · intro w hw
          rcases List.mem_cons.mp hw with hw | hw
          · rw [hw]
          · exact Nat.le_of_succ_le (hwlT w hw)
      · intro r q hr havAll t2 ht2
        have hrn : r < s.nextId := Nat.lt_of_lt_of_le hr hNn
        have havH : takesBindingB s.heap r q P (e.1.getLast hheadne) =
            false := hAv r q (havAll e (List.mem_cons_self _ _))
        have havTl : ∀ f ∈ es, slotAvoidB h2 s.layerId r q f.1 = true := by
          intro f hf
          rw [slotAvoidB_congr (hpar2 f hf) (htks2 r q hrn havH)]
          exact havAll f (List.mem_cons_of_mem _ hf)
        rw [hO2T r q hr havTl t2 ht2]
        exact hWP r q hrn havH t2 ht2

theorem forall₂_imp_mem {α β : Type} {R S : α → β → Prop}
    {l1 : List α} {l2 : List β} (hf : List.Forall₂ R l1 l2)
    (h : ∀ a ∈ l1, ∀ b ∈ l2, R a b → S a b) : List.Forall₂ S l1 l2 := by
  induction hf with
  | nil => exact List.Forall₂.nil
  | cons h1 h2 ih =>
      exact List.Forall₂.cons
        (h _ (List.mem_cons_self _ _) _ (List.mem_cons_self _ _) h1)
        (ih fun a ha b hb =>
          h a (List.mem_cons_of_mem _ ha) b (List.mem_cons_of_mem _ hb))

/-- Invariant of the restoration loop of `revert_layer_wrappers`: each
wrapper entry puts its original module back at its slot, and walks
avoiding the touched slots are untouched. -/
theorem revertFold_walks :
    ∀ (es ws : List (Name × ModId)) (s t : LC) (N : ModId),
      List.foldlM revertStep s ws = some t →
      List.Forall₂ (wrapped s.heap s.layerId s.name) es ws →
      (ws.map Prod.fst).Nodup →
      (∀ w ∈ ws, w.1 ≠ []) →
      s.layerId < N →
      (∀ w ∈ ws, N ≤ w.2) →
      (∀ w ∈ ws, ∀ P, getPath s.heap s.layerId w.1.dropLast = some P →
        P < N) →
      (∀ w ∈ ws, ∀ f ∈ ws, w.1 ≠ f.1 →
        slotAvoidB s.heap s.layerId s.layerId w.1 f.1 = true) →
      (∀ w ∈ ws,
        slotAvoidB s.heap s.layerId s.layerId w.1.dropLast w.1 = true) →
      (t.layerId = s.layerId ∧ t.modelId = s.modelId ∧ t.name = s.name ∧
        t.modules = s.modules ∧ t.nextId = s.nextId ∧
        t.handles = s.handles ∧ t.nextHandle = s.nextHandle) ∧
      (∀ e ∈ es, getPath t.heap s.layerId e.1 = some e.2) ∧
      (∀ (r : ModId) (q : Name), r < N →
        (∀ w ∈ ws, slotAvoidB s.heap s.layerId r q w.1 = true) →
        ∀ t2, t2 ≤ q.length →
          getPath t.heap r (q.take t2) = getPath s.heap r (q.take t2)) := by
  intro es
  induction es with
  | nil =>
      intro ws s t N hfold hfa hnodup hne hLN hWb hPb hpavR hselfR
      cases hfa
      rw [List.foldlM_nil] at hfold
      have ht : s = t := Option.some.inj hfold
      subst ht
      refine ⟨⟨rfl, rfl, rfl, rfl, rfl, rfl, rfl⟩, ?_, ?_⟩
      · intro e he
        exact absurd he (List.not_mem_nil _)
      · intro r q _ _ t2 _
        rfl
  | cons e es ih =>
      intro ws s t N hfold hfa hnodup hne hLN hWb hPb hpavR hselfR
      cases hfa with
      | cons h1 h2 =>
        rename_i w ws'
        obtain ⟨hw1, hfw, hcur⟩ := h1
        rw [List.foldlM_cons] at hfold
        obtain ⟨s2, hstep, hrest⟩ := obind_eq_some hfold
        unfold revertStep at hstep
        rw [hw1] at hstep
        rw [hfw, some_bind] at hstep
        have hlay : lookupKey
            (wrapperNode (getFullSubmoduleName s.name e.1) e.2).children
            "layer" = some e.2 := by
          rw [show (wrapperNode (getFullSubmoduleName s.name e.1)
            e.2).children = [("layer", e.2)] from rfl]
          rw [lookupKey_cons, if_pos rfl]
        rw [hlay, some_bind] at hstep
        have hene : e.1 ≠ [] := by
          rw [← hw1]
          exact hne w (List.mem_cons_self _ _)
        rw [if_neg hene] at hstep
        obtain ⟨h2x, hh2, hstep2⟩ := obind_eq_some hstep
        have hs2 : s2 = { s with heap := h2x } :=
          (Option.some.inj hstep2).symm
        have hs2h : s2.heap = h2x := by rw [hs2]
        have hs2L : s2.layerId = s.layerId := by rw [hs2]
        have hs2M : s2.modelId = s.modelId := by rw [hs2]
        have hs2nm : s2.name = s.name := by rw [hs2]
        have hs2mod : s2.modules = s.modules := by rw [hs2]
        have hs2n : s2.nextId = s.nextId := by rw [hs2]
        have hs2hd : s2.handles = s.handles := by rw [hs2]
        have hs2nh : s2.nextHandle = s.nextHandle := by rw [hs2]
        simp only [List.map_cons, List.nodup_cons] at hnodup
        have hfne : ∀ f ∈ ws', f.1 ≠ w.1 := by
          intro f hf hc
          exact hnodup.1 (List.mem_map.mpr ⟨f, hf, hc⟩)
        -- decompose the head path around its final segment
        have hsnoc : e.1.dropLast ++ [e.1.getLast hene] = e.1 :=
          List.dropLast_append_getLast hene
        have hga : e.1.getLast? = some (e.1.getLast hene) :=
          List.getLast?_eq_getLast e.1 hene
        have hcur' := hcur
        rw [← hsnoc] at hcur'
        obtain ⟨P, ndP, hpar, hfndP, hlkslot⟩ := getPath_snoc_elim hcur'
        have hPltN : P < N := by
          refine hPb w (List.mem_cons_self _ _) P ?_
          rw [hw1]
          exact hpar
        have hsl := set_layer_eq hene hpar hfndP e.2
        have hh2eq : h2x = hset s.heap P
            { ndP with children := setChild ndP.children (e.1.getLast hene) e.2 } :=
          (Option.some.inj (hsl.symm.trans hh2)).symm
        -- prefix walks avoiding the rebound slot are unchanged
        have hWP : ∀ (r : ModId) (q : Name),
            takesBindingB s.heap r q P (e.1.getLast hene) = false →
            ∀ t2, t2 ≤ q.length →
              getPath h2x r (q.take t2) = getPath s.heap r (q.take t2) := by
          intro r q hav t2 ht2
          rw [hh2eq]
          exact walk_hset_slot e.2 hfndP hav t2 ht2
        have hWPfull : ∀ (r : ModId) (q : Name),
            takesBindingB s.heap r q P (e.1.getLast hene) = false →
            getPath h2x r q = getPath s.heap r q := by
          intro r q hav
          have h := hWP r q hav q.length (Nat.le_refl _)
          simpa [List.take_length] using h
        have hAv : ∀ (r : ModId) (x : Name),
            slotAvoidB s.heap s.layerId r x e.1 = true →
            takesBindingB s.heap r x P (e.1.getLast hene) = false :=
          fun r x hsx => slotAvoidB_elim hsx hga hpar
        have htks2 : ∀ (r : ModId) (q : Name),
            takesBindingB s.heap r q P (e.1.getLast hene) = false →
            ∀ P2 a2, takesBindingB h2x r q P2 a2 =
              takesBindingB s.heap r q P2 a2 :=
          fun r q hav P2 a2 =>
            takesBindingB_congr
              (fun t2 ht2 => hWP r q hav t2 (Nat.le_of_lt ht2)) P2 a2
        have hself0 : slotAvoidB s.heap s.layerId s.layerId
            e.1.dropLast e.1 = true := by
          have h := hselfR w (List.mem_cons_self _ _)
          rw [hw1] at h
          exact h
        have hav0 : takesBindingB s.heap s.layerId e.1.dropLast P
            (e.1.getLast hene) = false :=
          hAv s.layerId e.1.dropLast hself0
        have hparh2 : getPath h2x s.layerId e.1.dropLast = some P := by
          rw [hWPfull s.layerId e.1.dropLast hav0]
          exact hpar
        -- the original module is back at the slot
        have hrest0 : getPath h2x s.layerId e.1 = some e.2 := by
          have hh := getPath_hset_slot_target hfndP (hh2eq ▸ hparh2)
          rw [hsnoc] at hh
          rw [hh2eq]
          exact hh
        -- facts about the remaining wrapper entries in the new heap
        have havHd : ∀ f ∈ ws',
            takesBindingB s.heap s.layerId f.1 P (e.1.getLast hene) =
              false := by
          intro f hf
          refine hAv s.layerId f.1 ?_
          have h := hpavR f (List.mem_cons_of_mem _ hf) w
            (List.mem_cons_self _ _) (hfne f hf)
          rw [hw1] at h
          exact h
        have hpar2 : ∀ f ∈ ws', getPath h2x s.layerId f.1.dropLast =
            getPath s.heap s.layerId f.1.dropLast := by
          intro f hf
          exact hWPfull s.layerId f.1.dropLast
            (takesBindingB_false_dropLast (havHd f hf))
        have hsound2 : ∀ f ∈ ws',
            getPath h2x s.layerId f.1 = getPath s.heap s.layerId f.1 := by
          intro f hf
          exact hWPfull s.layerId f.1 (havHd f hf)
        have hfa2 : List.Forall₂ (wrapped h2x s.layerId s.name) es ws' := by
          refine forall₂_imp_mem h2 ?_
          intro f hfes wf hwf hR
          obtain ⟨hR1, hR2, hR3⟩ := hR
          refine ⟨hR1, ?_, ?_⟩
          · rw [hh2eq]
            have hne2 : wf.2 ≠ P := by
              intro hc
              have := hWb wf (List.mem_cons_of_mem _ hwf)
              rw [hc] at this
              exact absurd hPltN (Nat.not_lt.mpr this)
            rw [hfind_hset_ne hne2]
            exact hR2
          · rw [← hR1]
            rw [hsound2 wf hwf, hR1]
            exact hR3
        -- apply the induction hypothesis at the post-step state
        obtain ⟨⟨hLid, hMid, hNm, hMod, hNid, hHd, hNH⟩, hresT, hO2T⟩ :=
          ih ws' s2 t N hrest
            (by rw [hs2h, hs2L, hs2nm]; exact hfa2)
            hnodup.2
            (fun f hf => hne f (List.mem_cons_of_mem _ hf))
            (by rw [hs2L]; exact hLN)
            (fun f hf => hWb f (List.mem_cons_of_mem _ hf))
            (by
              rw [hs2h, hs2L]
              intro f hf P2 hP2
              refine hPb f (List.mem_cons_of_mem _ hf) P2 ?_
              rw [← hpar2 f hf]
              exact hP2)
            (by
              rw [hs2h, hs2L]
              intro f hf g hg hfg
              rw [slotAvoidB_congr (hpar2 g hg)
                (htks2 s.layerId f.1 (havHd f hf))]
              exact hpavR f (List.mem_cons_of_mem _ hf) g
                (List.mem_cons_of_mem _ hg) hfg)
            (by
              rw [hs2h, hs2L]
              intro f hf
              rw [slotAvoidB_congr (hpar2 f hf)
                (htks2 s.layerId f.1.dropLast
                  (takesBindingB_false_dropLast (havHd f hf)))]
              exact hselfR f (List.mem_cons_of_mem _ hf))
        rw [hs2L] at hLid
        rw [hs2M] at hMid
        rw [hs2nm] at hNm
        rw [hs2mod] at hMod
        rw [hs2n] at hNid
        rw [hs2hd] at hHd
        rw [hs2nh] at hNH
        rw [hs2L] at hresT
        rw [hs2h, hs2L] at hO2T
        -- the restored head value survives the remaining steps
        have htksE : ∀ P2 a2, takesBindingB h2x s.layerId e.1 P2 a2 =
            takesBindingB s.heap s.layerId e.1 P2 a2 := by
          refine takesBindingB_congr ?_
          intro t2 ht2
          rw [take_eq_dropLast_take ht2]
          refine hWP s.layerId e.1.dropLast hav0 t2 ?_
          rw [List.length_dropLast]
          omega
        have havq : ∀ f ∈ ws',
            slotAvoidB h2x s.layerId s.layerId e.1 f.1 = true := by
          intro f hf
          rw [slotAvoidB_congr (hpar2 f hf) htksE]
          have h := hpavR w (List.mem_cons_self _ _) f
            (List.mem_cons_of_mem _ hf) (Ne.symm (hfne f hf))
          rw [hw1] at h
          exact h
        have hgT : getPath t.heap s.layerId e.1 = some e.2 := by
          have hpres := hO2T s.layerId e.1 hLN havq e.1.length (Nat.le_refl _)
          rw [List.take_length] at hpres
          rw [hpres]
          exact hrest0
        refine ⟨⟨hLid, hMid, hNm, hMod, hNid, hHd, hNH⟩, ?_, ?_⟩
        · intro f hf
          rcases List.mem_cons.mp hf with hf | hf
          · rw [hf]
            exact hgT
          · exact hresT f hf
        · intro r q hr havAll t2 ht2
          have havH : takesBindingB s.heap r q P (e.1.getLast hene) =
              false := by
            refine hAv r q ?_
            have h := havAll w (List.mem_cons_self _ _)
            rw [hw1] at h
            exact h
          have havTl : ∀ f ∈ ws',
              slotAvoidB h2x s.layerId r q f.1 = true := by
            intro f hf
            rw [slotAvoidB_congr (hpar2 f hf) (htks2 r q havH)]
            exact havAll f (List.mem_cons_of_mem _ hf)
          rw [hO2T r q hr havTl t2 ht2]
          exact hWP r q havH t2 ht2

theorem slotAvoidB_cases {h : Heap} {L r : ModId} {q p : Name} :
    slotAvoidB h L r q p = true ↔
      (∀ a P, p.getLast? = some a → getPath h L p.dropLast = some P →
        takesBindingB h r q P a = false) := by
  constructor
  · intro hs a P ha hP
    exact slotAvoidB_elim hs ha hP
  · intro hi
    unfold slotAvoidB
    cases ha : p.getLast? with
    | none => rfl
    | some a =>
        cases hP : getPath h L p.dropLast with
        | none => rfl
        | some P =>
            change (!takesBindingB h r q P a) = true
            rw [hi a P ha hP]
            rfl

theorem slotAvoidB_dropLast {h : Heap} {L r : ModId} {q p : Name}
    (hs : slotAvoidB h L r q p = true) :
    slotAvoidB h L r q.dropLast p = true := by
  rw [slotAvoidB_cases] at hs ⊢
  intro a P ha hP
  exact takesBindingB_false_dropLast (hs a P ha hP)

theorem forall₂_mem_right {α β : Type} {R : α → β → Prop}
    {es : List α} {ws : List β} (hf : List.Forall₂ R es ws) :
    ∀ w ∈ ws, ∃ e ∈ es, R e w := by
  induction hf with
  | nil => intro w hw; exact absurd hw (List.not_mem_nil _)
  | cons h1 h2 ih =>
      intro w hw
      rcases List.mem_cons.mp hw with hw | hw
      · exact ⟨_, List.mem_cons_self _ _, hw ▸ h1⟩
      · obtain ⟨e, he, hr⟩ := ih w hw
        exact ⟨e, List.mem_cons_of_mem _ he, hr⟩

/-- The hook-registration loop of `pre_compress` only rewrites hook
dictionaries: it changes no child binding and no object outside the
original modules. -/
theorem hookFold_preserves :
    ∀ (rs subset : List (Name × ModId)) (s t : LC) (N : ModId),
      List.foldlM (hookStep subset) s rs = some t →
      (∀ e ∈ subset, e.2 < N) →
      (∀ (r : ModId) (q : Name), getPath t.heap r q = getPath s.heap r q) ∧
      (∀ i, N ≤ i → hfind t.heap i = hfind s.heap i) ∧
      (t.layerId = s.layerId ∧ t.modelId = s.modelId ∧ t.name = s.name ∧
        t.modules = s.modules ∧ t.nextId = s.nextId) := by
  intro rs
  induction rs with
  | nil =>
      intro subset s t N hfold _
      rw [List.foldlM_nil] at hfold
      have ht : s = t := Option.some.inj hfold
      subst ht
      exact ⟨fun r q => rfl, fun i _ => rfl, rfl, rfl, rfl, rfl, rfl⟩
  | cons e rs ih =>
      intro subset s t N hfold hsub
      rw [List.foldlM_cons] at hfold
      obtain ⟨s2, hstep, hrest⟩ := obind_eq_some hfold
      unfold hookStep at hstep
      obtain ⟨orig, horig, hstep1⟩ := obind_eq_some hstep
      obtain ⟨nd, hnd, hstep2⟩ := obind_eq_some hstep1
      have hs2 : s2 = { s with
          heap := hset s.heap orig
            { nd with fwdHooks := nd.fwdHooks ++ [s.nextHandle] }
          nextHandle := s.nextHandle + 1
          handles := s.handles ++ [(orig, s.nextHandle)] } :=
        (Option.some.inj hstep2).symm
      have hs2h : s2.heap = hset s.heap orig
          { nd with fwdHooks := nd.fwdHooks ++ [s.nextHandle] } := by
        rw [hs2]
      have hs2L : s2.layerId = s.layerId := by rw [hs2]
      have hs2M : s2.modelId = s.modelId := by rw [hs2]
      have hs2nm : s2.name = s.name := by rw [hs2]
      have hs2mod : s2.modules = s.modules := by rw [hs2]
      have hs2n : s2.nextId = s.nextId := by rw [hs2]
      have horigN : orig < N := hsub (e.1, orig) (lookupKey_mem horig)
      have hgp : ∀ (r : ModId) (q : Name),
          getPath s2.heap r q = getPath s.heap r q := by
        intro r q
        rw [hs2h]
        exact getPath_hset_same_children hnd
          (show ({ nd with fwdHooks := nd.fwdHooks ++ [s.nextHandle] } :
            Node).children = nd.children from rfl) q r
      have hfp : ∀ i, N ≤ i → hfind s2.heap i = hfind s.heap i := by
        intro i hNi
        rw [hs2h]
        refine hfind_hset_ne ?_
        intro hc
        rw [hc] at hNi
        exact absurd horigN (Nat.not_lt.mpr hNi)
      obtain ⟨hgpT, hfpT, hLid, hMid, hNm, hMod, hNid⟩ :=
        ih subset s2 t N hrest hsub
      refine ⟨?_, ?_, ?_, ?_, ?_, ?_, ?_⟩
      · intro r q
        rw [hgpT r q]
        exact hgp r q
      · intro i hNi
        rw [hfpT i hNi]
        exact hfp i hNi
      · rw [hLid, hs2L]
      · rw [hMid, hs2M]
      · rw [hNm, hs2nm]
      · rw [hMod, hs2mod]
      · rw [hNid, hs2n]

/-- The round trip in the regular case: every compressible module has a
non-empty relative name, so each swap and each restore acts on a slot
inside the layer. -/
theorem c1_nonempty_case (s s1 s2 : LC)
    (hb : heapBound s.heap s.nextId)
    (hM : s.modelId < s.nextId)
    (hL : s.layerId < s.nextId)
    (hname : s.name ≠ [])
    (hlayer : getPath s.heap s.modelId s.name = some s.layerId)
    (hcn : ∀ p ∈ s.heap, (p.2.children.map Prod.fst).Nodup)
    (hnodup : ((compressible_modules s).map Prod.fst).Nodup)
    (hpav : ∀ e ∈ compressible_modules s, ∀ f ∈ compressible_modules s,
      e.1 ≠ f.1 → slotAvoidB s.heap s.layerId s.layerId e.1 f.1 = true)
    (hself : ∀ e ∈ compressible_modules s,
      slotAvoidB s.heap s.layerId s.layerId e.1.dropLast e.1 = true)
    (hmodel : ∀ e ∈ compressible_modules s,
      slotAvoidB s.heap s.layerId s.modelId s.name e.1 = true)
    (hreg0 : s.modules = some [])
    (hnil : ∀ e ∈ compressible_modules s, e.1 ≠ [])
    (hpre : pre_compress s = some s1)
    (hrev : revert_layer_wrappers s1 = some s2) :
    ∀ e ∈ compressible_modules s,
      getPath s2.heap s.modelId (s.name ++ e.1) = some e.2 := by
  unfold pre_compress at hpre
  obtain ⟨sa, hwrap, hpre1⟩ := obind_eq_some hpre
  obtain ⟨lid, hlid, hpre2⟩ := obind_eq_some hpre1
  obtain ⟨regb, hregb, hhook⟩ := obind_eq_some hpre2
  -- soundness and bounds for the subset
  have hsnd : ∀ e ∈ compressible_modules s,
      getPath s.heap s.layerId e.1 = some e.2 := by
    intro e he
    obtain ⟨p, m⟩ := e
    obtain ⟨q, hq, hg⟩ := prunableAux_sound hcn _ _ _ _ _ he
    rw [List.nil_append] at hq
    rw [hq]
    exact hg
  have hvals : ∀ e ∈ compressible_modules s, e.2 < s.nextId := by
    intro e he
    exact getPath_lt_bound hb e.1 s.layerId hL (hsnd e he)
  have hPlt : ∀ e ∈ compressible_modules s, ∀ P,
      getPath s.heap s.layerId e.1.dropLast = some P → P < s.nextId := by
    intro e he P hP
    exact getPath_lt_bound hb e.1.dropLast s.layerId hL hP
  -- the wrapping pass
  obtain ⟨⟨haL, haM, haNm, haHd, haNH, haES, haNid⟩, hbA, hhighA,
      ⟨wl, hmodA, hfaA, hwlA⟩, hO2A⟩ :=
    wrapFold_walks (compressible_modules s) s sa [] s.nextId hwrap hreg0 hb
      (Nat.le_refl _) hL hnil hnodup (by intro e he; simp)
      hsnd hPlt hpav hself
  rw [List.nil_append] at hmodA
  -- walks below the layer that avoid every slot are unchanged
  have havMix : ∀ e ∈ compressible_modules s,
      ∀ f ∈ compressible_modules s,
        slotAvoidB s.heap s.layerId s.layerId e.1.dropLast f.1 = true := by
    intro e he f hf
    by_cases hef : e.1 = f.1
    · rw [← hef]
      exact hself e he
    · exact slotAvoidB_dropLast (hpav e he f hf hef)
  have hparA : ∀ e ∈ compressible_modules s,
      getPath sa.heap s.layerId e.1.dropLast =
        getPath s.heap s.layerId e.1.dropLast := by
    intro e he
    have h := hO2A s.layerId e.1.dropLast hL
      (fun f hf => havMix e he f hf) e.1.dropLast.length (Nat.le_refl _)
    rw [List.take_length] at h
    exact h
  have hpreQ : ∀ e ∈ compressible_modules s, ∀ t2, t2 < e.1.length →
      getPath sa.heap s.layerId (e.1.take t2) =
        getPath s.heap s.layerId (e.1.take t2) := by
    intro e he t2 ht2
    rw [take_eq_dropLast_take ht2]
    refine hO2A s.layerId e.1.dropLast hL
      (fun f hf => havMix e he f hf) t2 ?_
    rw [List.length_dropLast]
    omega
  have htksA : ∀ e ∈ compressible_modules s, ∀ P2 a2,
      takesBindingB sa.heap s.layerId e.1 P2 a2 =
        takesBindingB s.heap s.layerId e.1 P2 a2 := by
    intro e he P2 a2
    exact takesBindingB_congr (fun t2 ht2 => hpreQ e he t2 ht2) P2 a2
  have htksDL : ∀ e ∈ compressible_modules s, ∀ P2 a2,
      takesBindingB sa.heap s.layerId e.1.dropLast P2 a2 =
        takesBindingB s.heap s.layerId e.1.dropLast P2 a2 := by
    intro e he P2 a2
    refine takesBindingB_congr ?_ P2 a2
    intro t2 ht2
    exact hO2A s.layerId e.1.dropLast hL
      (fun f hf => havMix e he f hf) t2 (Nat.le_of_lt ht2)
  -- the model-to-layer walk is unchanged
  have hmodelA : getPath sa.heap s.modelId s.name =
      getPath s.heap s.modelId s.name := by
    have h := hO2A s.modelId s.name hM (fun f hf => hmodel f hf)
      s.name.length (Nat.le_refl _)
    rw [List.take_length] at h
    exact h
  have htksName : ∀ P2 a2, takesBindingB sa.heap s.modelId s.name P2 a2 =
      takesBindingB s.heap s.modelId s.name P2 a2 :=
    takesBindingB_congr (fun t2 ht2 =>
      hO2A s.modelId s.name hM (fun f hf => hmodel f hf) t2
        (Nat.le_of_lt ht2))
  -- the re-fetched layer is the original layer
  rw [haNm, haM, if_neg hname, hmodelA] at hlid
  have hlidL : lid = s.layerId := Option.some.inj (hlid.symm.trans hlayer)
  subst hlidL
  have hregb' : sa.modules = some regb := hregb
  have hregwl : regb = wl := Option.some.inj (hregb'.symm.trans hmodA)
  rw [hregwl] at hhook
  -- the hook pass preserves every walk and every high object
  obtain ⟨hgpH, hfpH, hHL, hHM, hHnm, hHmod, hHnid⟩ :=
    hookFold_preserves wl (compressible_modules s) _ s1 s.nextId hhook hvals
  have hgpH' : ∀ (r : ModId) (q : Name),
      getPath s1.heap r q = getPath sa.heap r q := hgpH
  have hfpH' : ∀ i, s.nextId ≤ i → hfind s1.heap i = hfind sa.heap i := hfpH
  have hHL' : s1.layerId = s.layerId := hHL
  have hHM' : s1.modelId = s.modelId := by
    rw [hHM]
    exact haM
  have hHnm' : s1.name = s.name := by
    rw [hHnm]
    exact haNm
  have hHmod' : s1.modules = some wl := by
    rw [hHmod]
    exact hmodA
  have hslotH : ∀ (L r : ModId) (q p : Name),
      slotAvoidB s1.heap L r q p = slotAvoidB sa.heap L r q p :=
    fun L r q p => slotAvoidB_congr (hgpH' _ _)
      (fun P2 a2 => takesBindingB_congr (fun t2 _ => hgpH' _ _) P2 a2)
  -- the wrapper facts carry over to the hooked heap
  have hfaS1 : List.Forall₂ (wrapped s1.heap s.layerId s.name)
      (compressible_modules s) wl := by
    refine forall₂_imp_mem hfaA ?_
    intro e hees w hw hR
    obtain ⟨hR1, hR2, hR3⟩ := hR
    refine ⟨hR1, ?_, ?_⟩
    · rw [hfpH' w.2 (hwlA w hw)]
      exact hR2
    · rw [hgpH']
      exact hR3
  have hwlkeys : wl.map Prod.fst = (compressible_modules s).map Prod.fst :=
    forall₂_map_fst (fun e w h => h.1) hfaA
  -- unpack the revert pass
  unfold revert_layer_wrappers at hrev
  obtain ⟨reg1, hreg1, hrev1⟩ := obind_eq_some hrev
  obtain ⟨sr, hfoldR, hrev2⟩ := obind_eq_some hrev1
  have hs2eq : s2 = { sr with modules := none } :=
    (Option.some.inj hrev2).symm
  have hreg1wl : reg1 = wl := Option.some.inj (hreg1.symm.trans hHmod')
  rw [hreg1wl] at hfoldR
  obtain ⟨⟨hRL, hRM, hRnm, hRmod, hRnid, hRhd, hRnh⟩, hresR, hO2R⟩ :=
    revertFold_walks (compressible_modules s) wl s1 sr s.nextId hfoldR
      (by rw [hHL', hHnm']; exact hfaS1)
      (by rw [hwlkeys]; exact hnodup)
      (by
        intro w hw
        obtain ⟨e, he, hR⟩ := forall₂_mem_right hfaA w hw
        rw [hR.1]
        exact hnil e he)
      (by rw [hHL']; exact hL)
      hwlA
      (by
        intro w hw P hP
        obtain ⟨e, he, hR⟩ := forall₂_mem_right hfaA w hw
        rw [hHL', hR.1, hgpH', hparA e he] at hP
        exact hPlt e he P hP)
      (by
        intro w hw f hf hwf
        obtain ⟨e, he, hRe⟩ := forall₂_mem_right hfaA w hw
        obtain ⟨g, hg, hRg⟩ := forall₂_mem_right hfaA f hf
        rw [hRe.1, hRg.1] at hwf
        rw [hHL', hRe.1, hRg.1, hslotH]
        rw [slotAvoidB_congr (hparA g hg) (htksA e he)]
        exact hpav e he g hg hwf)
      (by
        intro w hw
        obtain ⟨e, he, hR⟩ := forall₂_mem_right hfaA w hw
        rw [hHL', hR.1, hslotH]
        rw [slotAvoidB_congr (hparA e he) (htksDL e he)]
        exact hself e he)
  rw [hHL'] at hresR
  -- the model still reaches the original layer after the revert
  have hnameR : getPath sr.heap s.modelId s.name = some s.layerId := by
    have havN : ∀ w ∈ wl,
        slotAvoidB s1.heap s1.layerId s.modelId s.name w.1 = true := by
      intro w hw
      obtain ⟨e, he, hR⟩ := forall₂_mem_right hfaA w hw
      rw [hHL', hR.1, hslotH]
      rw [slotAvoidB_congr (hparA e he) htksName]
      exact hmodel e he
    have h := hO2R s.modelId s.name hM havN s.name.length (Nat.le_refl _)
    rw [List.take_length] at h
    rw [h, hgpH', hmodelA]
    exact hlayer
  intro e he
  rw [show s2.heap = sr.heap from by rw [hs2eq]]
  rw [getPath_append, hnameR, some_bind]
  exact hresR e he

/-- The round trip in the degenerate case: the layer itself is the only
compressible module (empty relative name), so the swap and the restore
act on the layer's own slot in the root model. -/
theorem c1_nil_case (s s1 s2 : LC)
    (hb : heapBound s.heap s.nextId)
    (hM : s.modelId < s.nextId)
    (hL : s.layerId < s.nextId)
    (hname : s.name ≠ [])
    (hclean : fsdpToken ∉ s.name)
    (hlayer : getPath s.heap s.modelId s.name = some s.layerId)
    (hleaf : ∀ p ∈ s.heap, p.2.prunable = true → p.2.children = [])
    (hmslot : slotAvoidB s.heap s.modelId s.modelId
      s.name.dropLast s.name = true)
    (hreg0 : s.modules = some [])
    {m : ModId} (hm : ([], m) ∈ compressible_modules s)
    (hpre : pre_compress s = some s1)
    (hrev : revert_layer_wrappers s1 = some s2) :
    ∀ e ∈ compressible_modules s,
      getPath s2.heap s.modelId (s.name ++ e.1) = some e.2 := by
  have hm' : ([], m) ∈ get_prunable_layers s.heap s.layerId := hm
  have hsub : compressible_modules s = [([], s.layerId)] :=
    compressible_nil_case hleaf hm'
  have hfullN : getFullSubmoduleName s.name [] = s.name := by
    unfold getFullSubmoduleName
    rw [List.append_nil]
    exact fix_fsdp_clean hclean
  have hsnocN : s.name.dropLast ++ [s.name.getLast hname] = s.name :=
    List.dropLast_append_getLast hname
  have hgaN : s.name.getLast? = some (s.name.getLast hname) :=
    List.getLast?_eq_getLast s.name hname
  have hlayer' := hlayer
  rw [← hsnocN] at hlayer'
  obtain ⟨PN, ndN, hparN, hfndN, hlkN⟩ := getPath_snoc_elim hlayer'
  have hPNn : PN < s.nextId :=
    getPath_lt_bound hb s.name.dropLast s.modelId hM hparN
  have hAvm : takesBindingB s.heap s.modelId s.name.dropLast PN
      (s.name.getLast hname) = false :=
    slotAvoidB_elim hmslot hgaN hparN
  -- unpack the wrapping pass (a single special-case iteration)
  unfold pre_compress at hpre
  rw [hsub] at hpre
  obtain ⟨saw, hwrap, hpre1⟩ := obind_eq_some hpre
  rw [List.foldlM_cons] at hwrap
  obtain ⟨sa, hstep, hrest⟩ := obind_eq_some hwrap
  rw [List.foldlM_nil] at hrest
  have hsaw : sa = saw := Option.some.inj hrest
  subst hsaw
  unfold wrapStep at hstep
  dsimp only [] at hstep
  rw [if_pos rfl, hfullN] at hstep
  obtain ⟨h2, hh2, hstep2⟩ := obind_eq_some hstep
  rw [hreg0, some_bind] at hstep2
  have hsa : sa = { s with
      heap := h2
      nextId := s.nextId + 1
      modules := some (dictInsert [] [] s.nextId) } :=
    (Option.some.inj hstep2).symm
  have hsaH : sa.heap = h2 := by rw [hsa]
  have hsaM : sa.modelId = s.modelId := by rw [hsa]
  have hsaNm : sa.name = s.name := by rw [hsa]
  have hsamod : sa.modules = some [([], s.nextId)] := by
    rw [hsa]
    rfl
  -- compute the swap on the heap
  have hcons : ∀ (q : Name) (r : ModId), r < s.nextId →
      getPath ((s.nextId, wrapperNode s.name s.layerId) :: s.heap) r q =
        getPath s.heap r q :=
    getPath_cons_fresh hb (Nat.le_refl _)
  have hfrPN : hfind ((s.nextId, wrapperNode s.name s.layerId) :: s.heap)
      PN = some ndN := by
    rw [hfind_cons_ne (Nat.ne_of_lt hPNn)]
    exact hfndN
  have hparh1 : getPath ((s.nextId, wrapperNode s.name s.layerId) :: s.heap)
      s.modelId s.name.dropLast = some PN := by
    rw [hcons _ _ hM]
    exact hparN
  have hsl := set_layer_eq hname hparh1 hfrPN s.nextId
  have hh2eq : h2 = hset
      ((s.nextId, wrapperNode s.name s.layerId) :: s.heap) PN
      { ndN with children := setChild ndN.children (s.name.getLast hname) s.nextId } :=
    (Option.some.inj (hsl.symm.trans hh2)).symm
  have htks1N : ∀ P2 a2,
      takesBindingB ((s.nextId, wrapperNode s.name s.layerId) :: s.heap)
        s.modelId s.name.dropLast P2 a2 =
      takesBindingB s.heap s.modelId s.name.dropLast P2 a2 :=
    takesBindingB_congr (fun t2 _ => hcons _ _ hM)
  have hW2 : ∀ t2, t2 ≤ s.name.dropLast.length →
      getPath h2 s.modelId (s.name.dropLast.take t2) =
        getPath s.heap s.modelId (s.name.dropLast.take t2) := by
    intro t2 ht2
    rw [hh2eq]
    rw [walk_hset_slot s.nextId hfrPN (by rw [htks1N]; exact hAvm) t2 ht2]
    exact hcons _ _ hM
  have hparh2 : getPath h2 s.modelId s.name.dropLast = some PN := by
    have h := hW2 s.name.dropLast.length (Nat.le_refl _)
    rw [List.take_length] at h
    rw [h]
    exact hparN
  have hslot2 : getPath h2 s.modelId s.name = some s.nextId := by
    have hh := getPath_hset_slot_target hfrPN (hh2eq ▸ hparh2)
    rw [hsnocN] at hh
    rw [hh2eq]
    exact hh
  -- the re-fetched layer is the freshly installed wrapper
  obtain ⟨lid, hlid, hpre2⟩ := obind_eq_some hpre1
  rw [hsaNm, hsaM, hsaH, if_neg hname, hslot2] at hlid
  have hlidw : lid = s.nextId := Option.some.inj hlid.symm
  subst hlidw
  -- unpack the hook pass (one iteration on the original layer)
  obtain ⟨regb, hregb, hhook⟩ := obind_eq_some hpre2
  have hregb' : sa.modules = some regb := hregb
  have hregbv : regb = [([], s.nextId)] :=
    Option.some.inj (hregb'.symm.trans hsamod)
  rw [hregbv] at hhook
  rw [List.foldlM_cons] at hhook
  obtain ⟨sb1, hhstep, hhrest⟩ := obind_eq_some hhook
  rw [List.foldlM_nil] at hhrest
  have hsb1 : sb1 = s1 := Option.some.inj hhrest
  rw [hsb1] at hhstep
  unfold hookStep at hhstep
  dsimp only [] at hhstep
  obtain ⟨orig, horig, hh1⟩ := obind_eq_some hhstep
  have horigc : lookupKey [(([] : Name), s.layerId)] ([] : Name) =
      some s.layerId := rfl
  have horigL : orig = s.layerId :=
    (Option.some.inj (horigc.symm.trans horig)).symm
  subst horigL
  obtain ⟨ndL, hndL, hh2'⟩ := obind_eq_some hh1
  have hndL2 : hfind sa.heap s.layerId = some ndL := hndL
  have hs1eq := (Option.some.inj hh2').symm
  have hs1walk : ∀ (r : ModId) (q : Name),
      getPath s1.heap r q = getPath sa.heap r q := by
    intro r q
    rw [hs1eq]
    exact getPath_hset_same_children hndL2
      (show ({ ndL with fwdHooks := ndL.fwdHooks ++ [({ sa with layerId := s.nextId } : LC).nextHandle] } : Node).children = ndL.children from rfl) q r
  have hs1find : ∀ i, i ≠ s.layerId →
      hfind s1.heap i = hfind sa.heap i := by
    intro i hi
    rw [hs1eq]
    exact hfind_hset_ne hi
  have hs1M : s1.modelId = s.modelId := by
    rw [hs1eq]
    exact hsaM
  have hs1nm : s1.name = s.name := by
    rw [hs1eq]
    exact hsaNm
  have hs1mod : s1.modules = some [([], s.nextId)] := by
    rw [hs1eq]
    exact hsamod
  -- unpack the revert pass (a single special-case iteration)
  unfold revert_layer_wrappers at hrev
  obtain ⟨reg1, hreg1, hrev1⟩ := obind_eq_some hrev
  have hreg1v : reg1 = [([], s.nextId)] :=
    Option.some.inj (hreg1.symm.trans hs1mod)
  rw [hreg1v] at hrev1
  obtain ⟨sr, hfoldR, hrev2⟩ := obind_eq_some hrev1
  have hs2eq : s2 = { sr with modules := none } :=
    (Option.some.inj hrev2).symm
  rw [List.foldlM_cons] at hfoldR
  obtain ⟨sr0, hrstep, hrrest⟩ := obind_eq_some hfoldR
  rw [List.foldlM_nil] at hrrest
  have hsr0 : sr0 = sr := Option.some.inj hrrest
  rw [hsr0] at hrstep
  unfold revertStep at hrstep
  dsimp only [] at hrstep
  have hfwid : hfind s1.heap s.nextId =
      some (wrapperNode s.name s.layerId) := by
    rw [hs1find s.nextId (Ne.symm (Nat.ne_of_lt hL)), hsaH, hh2eq]
    rw [hfind_hset_ne (Ne.symm (Nat.ne_of_lt hPNn))]
    exact hfind_cons_self _ _ _
  rw [hfwid, some_bind] at hrstep
  have hlay2 : lookupKey (wrapperNode s.name s.layerId).children "layer" =
      some s.layerId := by
    rw [show (wrapperNode s.name s.layerId).children =
      [("layer", s.layerId)] from rfl]
    rw [lookupKey_cons, if_pos rfl]
  rw [hlay2, some_bind, if_pos rfl, hs1nm, hs1M, hfullN] at hrstep
  obtain ⟨h4, hh4, hrstep2⟩ := obind_eq_some hrstep
  have hsreq := (Option.some.inj hrstep2).symm
  -- compute the restore on the heap
  have hparS1 : getPath s1.heap s.modelId s.name.dropLast = some PN := by
    rw [hs1walk, hsaH]
    exact hparh2
  have hfP3 : (hfind s1.heap PN).isSome = true := by
    by_cases hPL : PN = s.layerId
    · rw [hPL, hs1eq]
      rw [hfind_hset_self (by rw [hndL2]; rfl)]
      rfl
    · rw [hs1find PN hPL, hsaH, hh2eq]
      exact hfind_isSome_hset (by rw [hfind_cons_ne (Nat.ne_of_lt hPNn), hfndN]; rfl)
  obtain ⟨ndP3, hndP3⟩ := Option.isSome_iff_exists.mp hfP3
  have hsl4 := set_layer_eq hname hparS1 hndP3 s.layerId
  have hh4eq : h4 = hset s1.heap PN
      { ndP3 with children := setChild ndP3.children (s.name.getLast hname) s.layerId } :=
    (Option.some.inj (hsl4.symm.trans hh4)).symm
  have havS1 : takesBindingB s1.heap s.modelId s.name.dropLast PN
      (s.name.getLast hname) = false := by
    rw [takesBindingB_congr (fun t2 _ => hs1walk _ _) PN _]
    rw [hsaH]
    rw [takesBindingB_congr (fun t2 ht2 => hW2 t2 (Nat.le_of_lt ht2)) PN _]
    exact hAvm
  have hpar4 : getPath h4 s.modelId s.name.dropLast = some PN := by
    rw [hh4eq]
    rw [getPath_hset_slot hndP3 havS1]
    exact hparS1
  have hfinal := getPath_hset_slot_target hndP3 (hh4eq ▸ hpar4)
  rw [hsnocN] at hfinal
  have hs2H : s2.heap = h4 := by rw [hs2eq, hsreq]
  intro e he
  rw [hsub] at he
  simp only [List.mem_singleton] at he
  subst he
  rw [hs2H, List.append_nil, hh4eq]
  exact hfinal

/-- C1: substitution is a bijective round-trip.  On a well-formed model
heap (bounded allocation, duplicate-free child names and subset names,
prunable modules being leaves, an FSDP-clean non-empty layer name that
resolves to the layer, and walks that reach each compressible slot only
through their own final binding), running `pre_compress` — which swaps
each compressible module for a wrapper — followed by
`revert_layer_wrappers` restores the exact original module object (the
same heap identity, not a copy) at the same path in the module tree:
seen from the root model, `self.name ++ relative_name` again resolves to
the original module id.  This includes the degenerate empty-name case
where the swap and restore happen on the root model instead of the
layer. -/
theorem pre_compress_revert_restores (s s1 s2 : LC)
    (hb : heapBound s.heap s.nextId)
    (hM : s.modelId < s.nextId)
    (hL : s.layerId < s.nextId)
    (hname : s.name ≠ [])
    (hclean : fsdpToken ∉ s.name)
    (hlayer : getPath s.heap s.modelId s.name = some s.layerId)
    (hcn : ∀ p ∈ s.heap, (p.2.children.map Prod.fst).Nodup)
    (hleaf : ∀ p ∈ s.heap, p.2.prunable = true → p.2.children = [])
    (hnodup : ((compressible_modules s).map Prod.fst).Nodup)
    (hpav : ∀ e ∈ compressible_modules s, ∀ f ∈ compressible_modules s,
      e.1 ≠ f.1 → slotAvoidB s.heap s.layerId s.layerId e.1 f.1 = true)
    (hself : ∀ e ∈ compressible_modules s,
      slotAvoidB s.heap s.layerId s.layerId e.1.dropLast e.1 = true)
    (hmodel : ∀ e ∈ compressible_modules s,
      slotAvoidB s.heap s.layerId s.modelId s.name e.1 = true)
    (hmslot : slotAvoidB s.heap s.modelId s.modelId
      s.name.dropLast s.name = true)
    (hreg0 : s.modules = some [])
    (hpre : pre_compress s = some s1)
    (hrev : revert_layer_wrappers s1 = some s2) :
    ∀ e ∈ compressible_modules s,
      getPath s2.heap s.modelId (s.name ++ e.1) = some e.2 := by
  by_cases hnil : ∀ e ∈ compressible_modules s, e.1 ≠ []
  · exact c1_nonempty_case s s1 s2 hb hM hL hname hlayer hcn hnodup hpav
      hself hmodel hreg0 hnil hpre hrev
  · push_neg at hnil
    obtain ⟨e, he, hee⟩ := hnil
    have he0 : ((e.1 : Name), e.2) ∈ compressible_modules s := by
      rw [Prod.mk.eta]
      exact he
    rw [hee] at he0
    exact c1_nil_case s s1 s2 hb hM hL hname hclean hlayer hleaf hmslot
      hreg0 he0 hpre hrev

/-- A minimal model for the degenerate branch of the round trip: the
layer `head` (id 1) is a prunable leaf hanging off the root model
(id 0), so its only compressible entry has the empty relative name. -/
def c1lc : LC :=
  { heap := [(0, plainNode false [("head", 1)]), (1, plainNode true [])]
    nextId := 2
    nextHandle := 0
    modelId := 0
    layerId := 1
    name := ["head"]
    handles := []
    earlyStopHandle := none
    modules := some [] }

/-- The state after `pre_compress` on `c1lc`: the wrapper (id 2) holds
the layer at its `layer` child, the model points at the wrapper, the
re-fetched `self.layer` is the wrapper, and one `add_batch` hook sits on
the original layer. -/
def c1lcMid : LC :=
  { heap := [
      (2, { isWrapper := true
            wrapName := ["head"]
            prunable := false
            preHooks := []
            fwdHooks := []
            children := [("layer", 1)] }),
      (0, { isWrapper := false
            wrapName := []
            prunable := false
            preHooks := []
            fwdHooks := []
            children := [("head", 2)] }),
      (1, { isWrapper := false
            wrapName := []
            prunable := true
            preHooks := []
            fwdHooks := [0]
            children := [] })]
    nextId := 3
    nextHandle := 1
    modelId := 0
    layerId := 2
    name := ["head"]
    handles := [(1, 0)]
    earlyStopHandle := none
    modules := some [([], 2)] }

/-- The state after `revert_layer_wrappers` on `c1lcMid`: the model's
`head` binding holds the original layer id 1 again and the registry is
the Python value `None`. -/
def c1lcAfter : LC :=
  { heap := [
      (2, { isWrapper := true
            wrapName := ["head"]
            prunable := false
            preHooks := []
            fwdHooks := []
            children := [("layer", 1)] }),
      (0, { isWrapper := false
            wrapName := []
            prunable := false
            preHooks := []
            fwdHooks := []
            children := [("head", 1)] }),
      (1, { isWrapper := false
            wrapName := []
            prunable := true
            preHooks := []
            fwdHooks := [0]
            children := [] })]
    nextId := 3
    nextHandle := 1
    modelId := 0
    layerId := 2
    name := ["head"]
    handles := [(1, 0)]
    earlyStopHandle := none
    modules := none }

theorem pre_compress_revert_restores_witness :
    getPath c1lcAfter.heap c1lc.modelId (c1lc.name ++ ([] : Name)) =
      some 1 :=
  pre_compress_revert_restores c1lc c1lcMid c1lcAfter
    (by unfold heapBound; decide)
    (by decide) (by decide) (by decide) (by decide) rfl (by decide)
    (by decide) (by decide) (by decide) (by decide) (by decide)
    (by decide) rfl rfl rfl ([], 1) (by decide)

end LlmCompressor
